import Mathlib

/-!
# FSNRedux — shallow embedding of the computational core

This file embeds the computational core of the FSNRedux repository in Lean 4 and
proves properties of it: the `Entry`/`Tree` data model and bottom-up aggregator
(`internal/fs/tree.go`), the scanner (`internal/fs/scanner.go`), the shared
layout height mapping (`scaleHeight`), the squarified-treemap layout
(`internal/layout/mapv.go`) and the pedestal-tree layout (`calcBounds`/`place`).

Modelling conventions:
* Go `int64`/`int` are modelled as `Int` (no arithmetic in the embedded code can
  overflow on the inputs considered, so no wrap-around is modelled).
* `time.Time` values are modelled as `Int` (they are only copied around).
* `float32`/`float64` arithmetic is modelled over `ℚ`; `math.Log2` is kept
  abstract as a function parameter (see `scaleHeight`), since its relevant
  properties (monotonicity, unboundedness) are hypotheses of the theorems.
* Go's `sort.Slice` is modelled two ways: abstractly, as a `sortFn` parameter
  (its documented contract — a permutation of the input consistent with the
  comparison, with *no* stability guarantee — appears as hypotheses), and
  concretely, as `goSortSliceBySizeDesc`, a step-faithful embedding of the Go
  standard library's pattern-defeating quicksort used by `sort.Slice` since Go
  1.19.
* the filesystem, `context.Context` cancellation and goroutine scheduling are
  modelled by an explicit filesystem value (`FSNode`) and a cancellation oracle
  (`Cancel`): the oracle answers every `ctx.Err()` / `select` observation the
  walk makes, so quantifying over oracles covers every schedule.
-/

namespace FSN

/-! ## Entry data model (`internal/fs/entry.go`) -/

/-- `EntryType` distinguishes files from directories and special nodes
(Go: `TypeFile`, `TypeDir`, `TypeSymlink`, `TypeOther`). -/
inductive EntryType where
  | file
  | dir
  | symlink
  | other
deriving DecidableEq, Repr

/-- `Entry` is a node in the scanned filesystem tree (Go struct `fs.Entry`).
Fields in source order: Name, Path, Type, Size, ModTime, Children, Depth,
Error, Loaded. -/
inductive Entry : Type where
  | mk : String → String → EntryType → Int → Int → List Entry → Int →
      String → Bool → Entry
deriving Repr

def Entry.name : Entry → String
  | .mk n _ _ _ _ _ _ _ _ => n

def Entry.path : Entry → String
  | .mk _ p _ _ _ _ _ _ _ => p

def Entry.type : Entry → EntryType
  | .mk _ _ t _ _ _ _ _ _ => t

def Entry.size : Entry → Int
  | .mk _ _ _ s _ _ _ _ _ => s

def Entry.modTime : Entry → Int
  | .mk _ _ _ _ m _ _ _ _ => m

def Entry.children : Entry → List Entry
  | .mk _ _ _ _ _ c _ _ _ => c

def Entry.depth : Entry → Int
  | .mk _ _ _ _ _ _ d _ _ => d

def Entry.error : Entry → String
  | .mk _ _ _ _ _ _ _ e _ => e

def Entry.loaded : Entry → Bool
  | .mk _ _ _ _ _ _ _ _ l => l

/-! ## Tree aggregation (`internal/fs/tree.go`) -/

/-- `ScanError` records an error encountered during scanning (path, message). -/
structure ScanError where
  path : String
  message : String
deriving DecidableEq, Repr

/-- The statistics accumulated on the `Tree` value while `aggregate` recurses:
`FileCount`, `DirCount`, `MaxDepth` and the flat `Errors` list. -/
structure AggState where
  fileCount : Int
  dirCount : Int
  maxDepth : Int
  errors : List ScanError
deriving Repr

def AggState.init : AggState := ⟨0, 0, 0, []⟩

/-- `Tree` is the result of a complete filesystem scan (Go struct `fs.Tree`).
`ScannedAt` (a wall-clock timestamp) is not modelled: no claim mentions it. -/
structure Tree where
  root : Entry
  totalSize : Int
  fileCount : Int
  dirCount : Int
  maxDepth : Int
  errors : List ScanError
deriving Repr

/-- One step of `Tree.aggregate`'s bookkeeping that is shared by both branches:
track the running maximum depth. -/
def AggState.trackDepth (st : AggState) (d : Int) : AggState :=
  if d > st.maxDepth then { st with maxDepth := d } else st

/-- Append the entry's error to the flat error list if non-empty
(the tail of Go `Tree.aggregate`). -/
def AggState.trackError (st : AggState) (path err : String) : AggState :=
  if err ≠ "" then { st with errors := st.errors ++ [⟨path, err⟩] } else st

mutual
/-- `aggregate` recursively computes sizes and stats (Go `Tree.aggregate`).
`sortFn` stands for Go's `sort.Slice(entry.Children, by Size descending)`;
see the module docstring. Returns the rewritten entry and the updated stats. -/
def aggregate (sortFn : List Entry → List Entry) :
    Entry → AggState → Entry × AggState
  | .mk name path ty _size mod children depth err loaded, st =>
    if ty = .dir then
      let st1 : AggState := { st with dirCount := st.dirCount + 1 }
      let res := aggregateChildren sortFn children st1
      let sorted := sortFn res.1
      let st2 := res.2.2.trackDepth depth
      (Entry.mk name path ty res.2.1 mod sorted depth err loaded,
        st2.trackError path err)
    else
      let st1 : AggState := { st with fileCount := st.fileCount + 1 }
      let st2 := st1.trackDepth depth
      (Entry.mk name path ty _size mod children depth err loaded,
        st2.trackError path err)

/-- The `for _, child := range entry.Children` loop of `Tree.aggregate`:
aggregates each child in order and accumulates `totalSize`. -/
def aggregateChildren (sortFn : List Entry → List Entry) :
    List Entry → AggState → List Entry × Int × AggState
  | [], st => ([], 0, st)
  | c :: cs, st =>
    let r := aggregate sortFn c st
    let rs := aggregateChildren sortFn cs r.2
    (r.1 :: rs.1, r.1.size + rs.2.1, rs.2.2)
end

/-- `buildTree` computes aggregate statistics on a scanned root entry
(Go `buildTree`). -/
def buildTree (sortFn : List Entry → List Entry) (root : Entry) : Tree :=
  let r := aggregate sortFn root AggState.init
  { root := r.1
    totalSize := r.1.size
    fileCount := r.2.fileCount
    dirCount := r.2.dirCount
    maxDepth := r.2.maxDepth
    errors := r.2.errors }

/-! ## Invariant predicates over aggregated trees -/

mutual
/-- `sizeOK e`: every directory in the subtree has `Size` equal to the sum of
its children's `Size`s (the §3 invariant, recursively exact). -/
def sizeOK : Entry → Bool
  | .mk _ _ ty sz _ children _ _ _ =>
    (if ty = .dir then sz == (children.map Entry.size).sum else true) &&
      sizeOKList children

def sizeOKList : List Entry → Bool
  | [] => true
  | c :: cs => sizeOK c && sizeOKList cs
end

/-- A list is non-increasing by `Size`. -/
def sortedBySizeDesc (l : List Entry) : Prop :=
  l.Pairwise (fun a b => b.size ≤ a.size)

mutual
/-- `childrenSortedOK e`: every directory's children list in the subtree is
sorted non-increasing by `Size`. -/
def childrenSortedOK : Entry → Prop
  | .mk _ _ _ _ _ children _ _ _ =>
    sortedBySizeDesc children ∧ childrenSortedOKList children

def childrenSortedOKList : List Entry → Prop
  | [] => True
  | c :: cs => childrenSortedOK c ∧ childrenSortedOKList cs
end

mutual
/-- `depthOK e`: every child in the subtree has `Depth` exactly one more than
its parent's (the §3 invariant). -/
def depthOK : Entry → Bool
  | .mk _ _ _ _ _ children d _ _ =>
    children.all (fun c => c.depth == d + 1) && depthOKList children

def depthOKList : List Entry → Bool
  | [] => true
  | c :: cs => depthOK c && depthOKList cs
end

/-- The comparison Go passes to `sort.Slice` in `Tree.aggregate` and `LoadDir`
is `Children[i].Size > Children[j].Size`; a sort consistent with it, as a
boolean "may come before" relation, is non-increasing `Size`. -/
def sizeDescLe (a b : Entry) : Bool := decide (b.size ≤ a.size)

/-- A concrete sort satisfying `sort.Slice`'s documented contract (the output
is a permutation of the input ordered by the comparison); used to instantiate
the `sortFn` hypotheses of the theorems below. -/
def sortBySizeDescModel (l : List Entry) : List Entry :=
  l.mergeSort sizeDescLe

theorem sortBySizeDescModel_perm (l : List Entry) :
    (sortBySizeDescModel l).Perm l :=
  List.mergeSort_perm l _

theorem sortBySizeDescModel_sorted (l : List Entry) :
    sortedBySizeDesc (sortBySizeDescModel l) := by
  have h := @List.sorted_mergeSort Entry sizeDescLe
    (fun a b c hab hbc => by
      simp only [sizeDescLe, decide_eq_true_eq] at *
      exact le_trans hbc hab)
    (fun a b => by
      simp only [sizeDescLe, Bool.or_eq_true, decide_eq_true_eq]
      exact le_total b.size a.size) l
  refine (List.Pairwise.imp ?_ h)
  intro a b hab
  simpa [sizeDescLe] using hab

mutual
/-- Wellformedness of scanner output: only directory entries carry children
(`walkDir`/`LoadDir` populate `Children` on `TypeDir` entries only). -/
def filesChildless : Entry → Bool
  | .mk _ _ ty _ _ children _ _ _ =>
    (if ty = .dir then true else children.isEmpty) && filesChildlessList children

def filesChildlessList : List Entry → Bool
  | [] => true
  | c :: cs => filesChildless c && filesChildlessList cs
end

theorem filesChildlessList_iff (l : List Entry) :
    filesChildlessList l = true ↔ ∀ e ∈ l, filesChildless e = true := by
  induction l with
  | nil => simp [filesChildlessList]
  | cons c cs ih => simp [filesChildlessList, ih, Bool.and_eq_true]

theorem sizeOKList_iff (l : List Entry) :
    sizeOKList l = true ↔ ∀ e ∈ l, sizeOK e = true := by
  induction l with
  | nil => simp [sizeOKList]
  | cons c cs ih => simp [sizeOKList, ih, Bool.and_eq_true]

theorem childrenSortedOKList_iff (l : List Entry) :
    childrenSortedOKList l ↔ ∀ e ∈ l, childrenSortedOK e := by
  induction l with
  | nil => simp [childrenSortedOKList]
  | cons c cs ih => simp [childrenSortedOKList, ih]

mutual
theorem sizeOK_aggregate (sortFn : List Entry → List Entry)
    (hperm : ∀ l, (sortFn l).Perm l) (e : Entry)
    (hwf : filesChildless e = true) (st : AggState) :
    sizeOK (aggregate sortFn e st).1 = true := by
  match e with
  | .mk name path ty sz mod children depth err loaded =>
    rw [filesChildless, Bool.and_eq_true] at hwf
    by_cases hty : ty = EntryType.dir
    · have hc := sizeOK_aggregateChildren sortFn hperm children hwf.2
        { st with dirCount := st.dirCount + 1 }
      have hsum : ((sortFn (aggregateChildren sortFn children
          { st with dirCount := st.dirCount + 1 }).1).map Entry.size).sum =
          ((aggregateChildren sortFn children
            { st with dirCount := st.dirCount + 1 }).1.map Entry.size).sum :=
        ((hperm _).map Entry.size).sum_eq
      have hmem : ∀ e ∈ sortFn (aggregateChildren sortFn children
          { st with dirCount := st.dirCount + 1 }).1, sizeOK e = true := by
        intro e he
        exact (sizeOKList_iff _).mp hc.1 e ((hperm _).mem_iff.mp he)
      subst hty
      simp only [aggregate, sizeOK, reduceIte, AggState.trackDepth,
        AggState.trackError, Bool.and_eq_true, beq_iff_eq]
      refine ⟨?_, (sizeOKList_iff _).mpr hmem⟩
      rw [hsum]
      exact hc.2
    · have hnil : children = [] := by
        have := hwf.1
        rw [if_neg hty] at this
        exact List.isEmpty_iff.mp this
      subst hnil
      simp [aggregate, if_neg hty, sizeOK, hty, sizeOKList]

theorem sizeOK_aggregateChildren (sortFn : List Entry → List Entry)
    (hperm : ∀ l, (sortFn l).Perm l) (cs : List Entry)
    (hwf : filesChildlessList cs = true) (st : AggState) :
    sizeOKList (aggregateChildren sortFn cs st).1 = true ∧
    (aggregateChildren sortFn cs st).2.1 =
      ((aggregateChildren sortFn cs st).1.map Entry.size).sum := by
  match cs with
  | [] => simp [aggregateChildren, sizeOKList]
  | c :: cs' =>
    rw [filesChildlessList, Bool.and_eq_true] at hwf
    have h1 := sizeOK_aggregate sortFn hperm c hwf.1 st
    have h2 := sizeOK_aggregateChildren sortFn hperm cs' hwf.2
      (aggregate sortFn c st).2
    simp only [aggregateChildren, sizeOKList, Bool.and_eq_true, List.map_cons,
      List.sum_cons]
    exact ⟨⟨h1, h2.1⟩, by rw [h2.2]⟩
end

mutual
theorem sorted_aggregate (sortFn : List Entry → List Entry)
    (hperm : ∀ l, (sortFn l).Perm l)
    (hsorted : ∀ l, sortedBySizeDesc (sortFn l)) (e : Entry)
    (hwf : filesChildless e = true) (st : AggState) :
    childrenSortedOK (aggregate sortFn e st).1 := by
  match e with
  | .mk name path ty sz mod children depth err loaded =>
    rw [filesChildless, Bool.and_eq_true] at hwf
    by_cases hty : ty = EntryType.dir
    · have hc := sorted_aggregateChildren sortFn hperm hsorted children hwf.2
        { st with dirCount := st.dirCount + 1 }
      have hmem : ∀ e ∈ sortFn (aggregateChildren sortFn children
          { st with dirCount := st.dirCount + 1 }).1, childrenSortedOK e := by
        intro e he
        exact (childrenSortedOKList_iff _).mp hc e ((hperm _).mem_iff.mp he)
      subst hty
      simp only [aggregate, childrenSortedOK, reduceIte, AggState.trackDepth,
        AggState.trackError]
      exact ⟨hsorted _, (childrenSortedOKList_iff _).mpr hmem⟩
    · have hnil : children = [] := by
        have := hwf.1
        rw [if_neg hty] at this
        exact List.isEmpty_iff.mp this
      subst hnil
      simp [aggregate, if_neg hty, childrenSortedOK, childrenSortedOKList,
        sortedBySizeDesc]

theorem sorted_aggregateChildren (sortFn : List Entry → List Entry)
    (hperm : ∀ l, (sortFn l).Perm l)
    (hsorted : ∀ l, sortedBySizeDesc (sortFn l)) (cs : List Entry)
    (hwf : filesChildlessList cs = true) (st : AggState) :
    childrenSortedOKList (aggregateChildren sortFn cs st).1 := by
  match cs with
  | [] => simp [aggregateChildren, childrenSortedOKList]
  | c :: cs' =>
    rw [filesChildlessList, Bool.and_eq_true] at hwf
    have h1 := sorted_aggregate sortFn hperm hsorted c hwf.1 st
    have h2 := sorted_aggregateChildren sortFn hperm hsorted cs' hwf.2
      (aggregate sortFn c st).2
    exact ⟨h1, h2⟩
end

/-- **C1.** After aggregation (`buildTree`/`aggregate` applied to a scanned
root, in which only directories carry children), every directory entry in the
resulting tree has `Size` equal to the sum of its children's `Size`s,
recursively exact over the whole tree. `sortFn` stands for `sort.Slice`, whose
contract guarantees the sorted children are a permutation of the input. -/
theorem C1_aggregate_dir_size_is_sum_of_children
    (sortFn : List Entry → List Entry)
    (hperm : ∀ l, (sortFn l).Perm l) (root : Entry)
    (hwf : filesChildless root = true) :
    sizeOK (buildTree sortFn root).root = true :=
  sizeOK_aggregate sortFn hperm root hwf AggState.init

/-- A sample scanned root: a directory holding two files and a subdirectory
with one file (sizes deliberately unsorted and with a tie). -/
def sampleRoot : Entry :=
  Entry.mk "root" "/r" .dir 0 0
    [Entry.mk "a" "/r/a" .file 10 0 [] 1 "" false,
     Entry.mk "sub" "/r/sub" .dir 0 0
       [Entry.mk "c" "/r/sub/c" .file 500 0 [] 2 "" false] 1 "" true,
     Entry.mk "b" "/r/b" .file 10 0 [] 1 "" false]
    0 "" true

theorem C1_witness :
    sizeOK (buildTree sortBySizeDescModel sampleRoot).root = true :=
  C1_aggregate_dir_size_is_sum_of_children sortBySizeDescModel
    sortBySizeDescModel_perm sampleRoot (by decide)

/-! ## Go's `sort.Slice`: pattern-defeating quicksort (Go ≥ 1.19)

A step-faithful embedding of the Go standard library's `pdqsort` as invoked by
`sort.Slice` (the sort used by `Tree.aggregate` and `Scanner.LoadDir`).
Loops are given explicit fuel upper bounds; every fuel passed at a call site
strictly exceeds the number of iterations the Go loop can perform on a segment
of that length, so the model computes exactly what the Go code computes. -/

instance : Inhabited Entry := ⟨Entry.mk "" "" .file 0 0 [] 0 "" false⟩

/-- `data.Less i j` for a comparison on elements. -/
def lessAt [Inhabited α] (less : α → α → Bool) (d : List α) (i j : Nat) : Bool :=
  less (d.getD i default) (d.getD j default)

/-- `data.Swap i j`. -/
def swapAt [Inhabited α] (d : List α) (i j : Nat) : List α :=
  let x := d.getD i default
  let y := d.getD j default
  (d.set i y).set j x

/-- Inner loop of Go `insertionSort_func`: shift `d[j]` left while smaller. -/
def goInsertionInner [Inhabited α] (less : α → α → Bool) (d : List α)
    (j a : Nat) : Nat → List α
  | 0 => d
  | fuel + 1 =>
    if a < j ∧ lessAt less d j (j - 1) = true then
      goInsertionInner less (swapAt d j (j - 1)) (j - 1) a fuel
    else d

/-- Outer loop of Go `insertionSort_func` over `i = a+1 .. b-1`. -/
def goInsertionLoop [Inhabited α] (less : α → α → Bool) (d : List α)
    (i b a : Nat) : Nat → List α
  | 0 => d
  | fuel + 1 =>
    if i < b then
      goInsertionLoop less (goInsertionInner less d i a (i + 1)) (i + 1) b a fuel
    else d

/-- Go `insertionSort_func(data, a, b)`. -/
def goInsertionSort [Inhabited α] (less : α → α → Bool) (d : List α)
    (a b : Nat) : List α :=
  goInsertionLoop less d (a + 1) b a (b + 1)

/-- Go `siftDown_func(data, lo, hi, first)`. -/
def goSiftDown [Inhabited α] (less : α → α → Bool) (d : List α)
    (root hi first : Nat) : Nat → List α
  | 0 => d
  | fuel + 1 =>
    let child := 2 * root + 1
    if child ≥ hi then d
    else
      let child :=
        if child + 1 < hi ∧ lessAt less d (first + child) (first + child + 1) = true
        then child + 1 else child
      if ¬ lessAt less d (first + root) (first + child) = true then d
      else goSiftDown less (swapAt d (first + root) (first + child)) child hi
        first fuel

/-- Heap-building phase of Go `heapSort_func`: `siftDown` for `i, i-1, .., 0`. -/
def goHeapSortBuild [Inhabited α] (less : α → α → Bool) (d : List α)
    (i hi first : Nat) : List α :=
  let d1 := goSiftDown less d i hi first (hi + 1)
  match i with
  | 0 => d1
  | i' + 1 => goHeapSortBuild less d1 i' hi first

/-- Pop phase of Go `heapSort_func` for `i, i-1, .., 0`. -/
def goHeapSortPop [Inhabited α] (less : α → α → Bool) (d : List α)
    (i first : Nat) : List α :=
  let d1 := goSiftDown less (swapAt d first (first + i)) 0 i first (i + 2)
  match i with
  | 0 => d1
  | i' + 1 => goHeapSortPop less d1 i' first

/-- Go `heapSort_func(data, a, b)`. -/
def goHeapSort [Inhabited α] (less : α → α → Bool) (d : List α)
    (a b : Nat) : List α :=
  let first := a
  let hi := b - a
  let d1 := goHeapSortBuild less d ((hi - 1) / 2) hi first
  if hi = 0 then d1 else goHeapSortPop less d1 (hi - 1) first

/-- Go `order2_func`: order two indices by the data, counting swaps. -/
def goOrder2 [Inhabited α] (less : α → α → Bool) (d : List α)
    (a b swaps : Nat) : Nat × Nat × Nat :=
  if lessAt less d b a = true then (b, a, swaps + 1) else (a, b, swaps)

/-- Go `median_func`: index of the median of three, counting swaps. -/
def goMedian [Inhabited α] (less : α → α → Bool) (d : List α)
    (a b c swaps : Nat) : Nat × Nat :=
  let r1 := goOrder2 less d a b swaps
  let r2 := goOrder2 less d r1.2.1 c r1.2.2
  let r3 := goOrder2 less d r1.1 r2.1 r2.2.2
  (r3.2.1, r3.2.2)

/-- Go `medianAdjacent_func`: median of `i-1, i, i+1`. -/
def goMedianAdjacent [Inhabited α] (less : α → α → Bool) (d : List α)
    (i swaps : Nat) : Nat × Nat :=
  goMedian less d (i - 1) i (i + 1) swaps

/-- The `sortedHint` values of the Go sort package. -/
inductive Hint where
  | increasing
  | decreasing
  | unknown
deriving DecidableEq, Repr

def hintOfSwaps (s : Nat) : Hint :=
  if s = 0 then .increasing else if s = 12 then .decreasing else .unknown

/-- Go `choosePivot_func(data, a, b)`: static pivot below 8 elements,
median-of-three below 50, Tukey ninther above. -/
def goChoosePivot [Inhabited α] (less : α → α → Bool) (d : List α)
    (a b : Nat) : Nat × Hint :=
  let l := b - a
  let i := a + l / 4 * 1
  let j := a + l / 4 * 2
  let k := a + l / 4 * 3
  if l ≥ 8 then
    if l ≥ 50 then
      let r1 := goMedianAdjacent less d i 0
      let r2 := goMedianAdjacent less d j r1.2
      let r3 := goMedianAdjacent less d k r2.2
      let r4 := goMedian less d r1.1 r2.1 r3.1 r3.2
      (r4.1, hintOfSwaps r4.2)
    else
      let r4 := goMedian less d i j k 0
      (r4.1, hintOfSwaps r4.2)
  else (j, .increasing)

/-- Go `reverseRange_func(data, a, b)`. -/
def goReverseRange [Inhabited α] (d : List α) (i j : Nat) : Nat → List α
  | 0 => d
  | fuel + 1 =>
    if i < j then goReverseRange (swapAt d i j) (i + 1) (j - 1) fuel else d

/-- `for i <= j && data.Less(i, a) { i++ }` (first scan of `partition_func`). -/
def goScanI [Inhabited α] (less : α → α → Bool) (d : List α)
    (i j a : Nat) : Nat → Nat
  | 0 => i
  | fuel + 1 =>
    if i ≤ j ∧ lessAt less d i a = true then goScanI less d (i + 1) j a fuel
    else i

/-- `for i <= j && !data.Less(j, a) { j-- }`. In every call `i ≥ a+1 ≥ 1`, so
the Go `int` index `j` never goes below `0` while the loop guard holds. -/
def goScanJ [Inhabited α] (less : α → α → Bool) (d : List α)
    (i j a : Nat) : Nat → Nat
  | 0 => j
  | fuel + 1 =>
    if i ≤ j ∧ ¬ lessAt less d j a = true then goScanJ less d i (j - 1) a fuel
    else j

/-- The swap loop of Go `partition_func` after the first crossing. -/
def goPartitionLoop [Inhabited α] (less : α → α → Bool) (d : List α)
    (i j a : Nat) : Nat → List α × Nat
  | 0 => (d, j)
  | fuel + 1 =>
    let i1 := goScanI less d i j a (j + 2)
    let j1 := goScanJ less d i1 j a (j + 2)
    if i1 > j1 then (d, j1)
    else goPartitionLoop less (swapAt d i1 j1) (i1 + 1) (j1 - 1) a fuel

/-- Go `partition_func(data, a, b, pivot)`: Hoare partition around `d[pivot]`;
returns the new data, the pivot's final position and whether the segment was
already partitioned. -/
def goPartition [Inhabited α] (less : α → α → Bool) (d0 : List α)
    (a b pivot : Nat) : List α × Nat × Bool :=
  let d := swapAt d0 a pivot
  let i := a + 1
  let j := b - 1
  let i1 := goScanI less d i j a (j + 2)
  let j1 := goScanJ less d i1 j a (j + 2)
  if i1 > j1 then (swapAt d j1 a, j1, true)
  else
    let r := goPartitionLoop less (swapAt d i1 j1) (i1 + 1) (j1 - 1) a (b + 2)
    (swapAt r.1 r.2 a, r.2, false)

/-- `for i <= j && !data.Less(a, i) { i++ }` (scan of `partitionEqual_func`). -/
def goScanEqI [Inhabited α] (less : α → α → Bool) (d : List α)
    (i j a : Nat) : Nat → Nat
  | 0 => i
  | fuel + 1 =>
    if i ≤ j ∧ ¬ lessAt less d a i = true then goScanEqI less d (i + 1) j a fuel
    else i

/-- `for i <= j && data.Less(a, j) { j-- }`. -/
def goScanEqJ [Inhabited α] (less : α → α → Bool) (d : List α)
    (i j a : Nat) : Nat → Nat
  | 0 => j
  | fuel + 1 =>
    if i ≤ j ∧ lessAt less d a j = true then goScanEqJ less d i (j - 1) a fuel
    else j

/-- The swap loop of Go `partitionEqual_func`. -/
def goPartitionEqualLoop [Inhabited α] (less : α → α → Bool) (d : List α)
    (i j a : Nat) : Nat → List α × Nat
  | 0 => (d, i)
  | fuel + 1 =>
    let i1 := goScanEqI less d i j a (j + 2)
    let j1 := goScanEqJ less d i1 j a (j + 2)
    if i1 > j1 then (d, i1)
    else goPartitionEqualLoop less (swapAt d i1 j1) (i1 + 1) (j1 - 1) a fuel

/-- Go `partitionEqual_func(data, a, b, pivot)`: skips over elements equal to
the pivot; returns the new data and the first index past the equal run. -/
def goPartitionEqual [Inhabited α] (less : α → α → Bool) (d0 : List α)
    (a b pivot : Nat) : List α × Nat :=
  let d := swapAt d0 a pivot
  goPartitionEqualLoop less d (a + 1) (b - 1) a (b + 2)

/-- `for i < b && !data.Less(i, i-1) { i++ }` (advance over a sorted run). -/
def goPartAdvance [Inhabited α] (less : α → α → Bool) (d : List α)
    (i b : Nat) : Nat → Nat
  | 0 => i
  | fuel + 1 =>
    if i < b ∧ ¬ lessAt less d i (i - 1) = true then
      goPartAdvance less d (i + 1) b fuel
    else i

/-- Left-shift loop of Go `partialInsertionSort_func`. -/
def goPartShiftLeft [Inhabited α] (less : α → α → Bool) (d : List α)
    (j : Nat) : Nat → List α
  | 0 => d
  | fuel + 1 =>
    if 1 ≤ j ∧ lessAt less d j (j - 1) = true then
      goPartShiftLeft less (swapAt d j (j - 1)) (j - 1) fuel
    else d

/-- Right-shift loop of Go `partialInsertionSort_func`. -/
def goPartShiftRight [Inhabited α] (less : α → α → Bool) (d : List α)
    (j b : Nat) : Nat → List α
  | 0 => d
  | fuel + 1 =>
    if j < b ∧ lessAt less d j (j - 1) = true then
      goPartShiftRight less (swapAt d j (j - 1)) (j + 1) b fuel
    else d

/-- The `maxSteps = 5` loop of Go `partialInsertionSort_func`; returns the new
data and whether the segment ended up fully sorted. -/
def goPartInsertionSteps [Inhabited α] (less : α → α → Bool) (d : List α)
    (i b a : Nat) : Nat → List α × Bool
  | 0 => (d, false)
  | steps + 1 =>
    let i1 := goPartAdvance less d i b (b + 1)
    if i1 = b then (d, true)
    else if b - a < 50 then (d, false)
    else
      let d1 := swapAt d i1 (i1 - 1)
      let d2 := if i1 - a ≥ 2 then goPartShiftLeft less d1 (i1 - 1) i1 else d1
      let d3 := if b - i1 ≥ 2 then goPartShiftRight less d2 (i1 + 1) b (b + 1)
        else d2
      goPartInsertionSteps less d3 i1 b a steps

/-- Go `partialInsertionSort_func(data, a, b)`. -/
def goPartInsertionSort [Inhabited α] (less : α → α → Bool) (d : List α)
    (a b : Nat) : List α × Bool :=
  goPartInsertionSteps less d (a + 1) b a 5

/-- One step of the Go sort package's `xorshift` generator (64-bit). -/
def xorshiftNext (r : Nat) : Nat :=
  let m := 2 ^ 64
  let r1 := (Nat.xor r ((r <<< 13) % m)) % m
  let r2 := Nat.xor r1 (r1 >>> 7)
  (Nat.xor r2 ((r2 <<< 17) % m)) % m

/-- Go `bits.Len(uint(n))`. -/
def bitsLen (n : Nat) : Nat := if n = 0 then 0 else Nat.log2 n + 1

/-- Go `nextPowerOfTwo(length)`. -/
def nextPowerOfTwo (length : Nat) : Nat := 1 <<< bitsLen length

/-- The three scatter swaps of Go `breakPatterns_func`. -/
def goBreakPatternsSwaps [Inhabited α] (d : List α)
    (idx a length modulus random : Nat) : Nat → Nat → List α
  | _, 0 => d
  | i, n + 1 =>
    let r1 := xorshiftNext random
    let other0 := r1 % modulus
    let other := if other0 ≥ length then other0 - length else other0
    goBreakPatternsSwaps (swapAt d (idx - 1 + i) (a + other)) idx a length
      modulus r1 (i + 1) n

/-- Go `breakPatterns_func(data, a, b)`. -/
def goBreakPatterns [Inhabited α] (d : List α) (a b : Nat) : List α :=
  let length := b - a
  if length ≥ 8 then
    let modulus := nextPowerOfTwo length
    let idx := a + (length / 4) * 2 - 1
    goBreakPatternsSwaps d idx a length modulus length 0 3
  else d

/-- The main loop of Go `pdqsort_func(data, a, b, limit)`. `wasBalanced` and
`wasPartitioned` are the loop-carried locals (both start `true`); `continue`
is a tail call, recursion into the smaller side restarts them at `true`. -/
def goPdqsortLoop [Inhabited α] (less : α → α → Bool) (d : List α)
    (a b limit : Nat) (wasBalanced wasPartitioned : Bool) : Nat → List α
  | 0 => d
  | fuel + 1 =>
    let length := b - a
    if length ≤ 12 then goInsertionSort less d a b
    else if limit = 0 then goHeapSort less d a b
    else
      let db := if ¬ wasBalanced then goBreakPatterns d a b else d
      let limit1 := if ¬ wasBalanced then limit - 1 else limit
      let pv := goChoosePivot less db a b
      let dr := if pv.2 = Hint.decreasing then goReverseRange db a (b - 1) (b + 1)
        else db
      let pivot := if pv.2 = Hint.decreasing then (b - 1) - (pv.1 - a) else pv.1
      let hint : Hint := if pv.2 = Hint.decreasing then .increasing else pv.2
      let tryPart := wasBalanced ∧ wasPartitioned ∧ hint = Hint.increasing
      let pr := if tryPart then goPartInsertionSort less dr a b else (dr, false)
      if pr.2 then pr.1
      else
        let d1 := pr.1
        if a > 0 ∧ ¬ lessAt less d1 (a - 1) pivot = true then
          let pe := goPartitionEqual less d1 a b pivot
          goPdqsortLoop less pe.1 pe.2 b limit1 wasBalanced wasPartitioned fuel
        else
          let pt := goPartition less d1 a b pivot
          let mid := pt.2.1
          let wasPartitioned1 := pt.2.2
          let leftLen := mid - a
          let rightLen := b - mid
          let balanceThreshold := length / 8
          let wasBalanced1 := decide (min leftLen rightLen ≥ balanceThreshold)
          if leftLen < rightLen then
            let d2 := goPdqsortLoop less pt.1 a mid limit1 true true fuel
            goPdqsortLoop less d2 (mid + 1) b limit1 wasBalanced1
              wasPartitioned1 fuel
          else
            let d2 := goPdqsortLoop less pt.1 (mid + 1) b limit1 true true fuel
            goPdqsortLoop less d2 a mid limit1 wasBalanced1 wasPartitioned1 fuel

/-- Go `sort.Slice(x, less)`: `pdqsort(data, 0, n, bits.Len(uint(n)))`. -/
def goSortSlice [Inhabited α] (less : α → α → Bool) (l : List α) : List α :=
  goPdqsortLoop less l 0 l.length (bitsLen l.length) true true
    (2 * l.length + 64)

/-- `sort.Slice(children, func(i, j) { return children[i].Size > children[j].Size })`
as called by `Tree.aggregate` and `Scanner.LoadDir`. -/
def goSortSliceBySizeDesc (l : List Entry) : List Entry :=
  goSortSlice (fun x y => decide (y.size < x.size)) l

/-! ## C2: Children ordering after aggregation -/

/-- The names of the entries of `l` whose `Size` is `v`, in list order. -/
def tieNames (v : Int) (l : List Entry) : List String :=
  (l.filter (fun e => e.size == v)).map Entry.name

/-- "Children of equal Size keep their original discovery order": for every
occurring size, the equal-sized entries appear in the same order in `out` as
in `orig`. -/
def tiesKeepOrder (orig out : List Entry) : Bool :=
  (orig.map Entry.size).all (fun v => tieNames v out == tieNames v orig)

/-- A directory of 13 equal-priority children — twelve files of size 5 and one
of size 9 at discovery position 6 — in their filesystem discovery order. -/
def c2Root : Entry :=
  Entry.mk "root" "/r" .dir 0 0
    [Entry.mk "f0" "/r/f0" .file 5 0 [] 1 "" false,
     Entry.mk "f1" "/r/f1" .file 5 0 [] 1 "" false,
     Entry.mk "f2" "/r/f2" .file 5 0 [] 1 "" false,
     Entry.mk "f3" "/r/f3" .file 5 0 [] 1 "" false,
     Entry.mk "f4" "/r/f4" .file 5 0 [] 1 "" false,
     Entry.mk "f5" "/r/f5" .file 5 0 [] 1 "" false,
     Entry.mk "f6" "/r/f6" .file 9 0 [] 1 "" false,
     Entry.mk "f7" "/r/f7" .file 5 0 [] 1 "" false,
     Entry.mk "f8" "/r/f8" .file 5 0 [] 1 "" false,
     Entry.mk "f9" "/r/f9" .file 5 0 [] 1 "" false,
     Entry.mk "f10" "/r/f10" .file 5 0 [] 1 "" false,
     Entry.mk "f11" "/r/f11" .file 5 0 [] 1 "" false,
     Entry.mk "f12" "/r/f12" .file 5 0 [] 1 "" false]
    0 "" true

/-- **C2 counterexample.** With `sort.Slice` embedded step-by-step
(`goSortSliceBySizeDesc`), aggregating `c2Root` yields children sorted
non-increasing by `Size` whose equal-`Size` members do **not** keep their
discovery order (`f3` now precedes `f1` and `f2`): the sort is
`sort.Slice`, which is not stable, so the stability half of the claim is
false. -/
theorem C2_counterexample :
    ((buildTree goSortSliceBySizeDesc c2Root).root.children.map Entry.name =
      ["f6", "f3", "f2", "f0", "f4", "f5", "f1", "f7", "f8", "f9", "f10",
        "f11", "f12"]) ∧
    sortedBySizeDesc (buildTree goSortSliceBySizeDesc c2Root).root.children ∧
    tiesKeepOrder c2Root.children
      (buildTree goSortSliceBySizeDesc c2Root).root.children = false := by
  refine ⟨by decide, ?_, by decide⟩
  · rw [sortedBySizeDesc]
    decide

/-- **C2 (amended).** After aggregation of a scanned root, every directory's
Children list is sorted non-increasing by `Size`; children of equal `Size`
may be reordered, because `sort.Slice` does not guarantee stability. The
amended sorting claim holds for every `sortFn` satisfying `sort.Slice`'s
contract (a permutation ordered non-increasing by `Size`). -/
theorem C2_amended_aggregate_children_sorted_desc
    (sortFn : List Entry → List Entry)
    (hperm : ∀ l, (sortFn l).Perm l)
    (hsorted : ∀ l, sortedBySizeDesc (sortFn l)) (root : Entry)
    (hwf : filesChildless root = true) :
    childrenSortedOK (buildTree sortFn root).root :=
  sorted_aggregate sortFn hperm hsorted root hwf AggState.init

theorem C2_witness :
    childrenSortedOK (buildTree sortBySizeDescModel sampleRoot).root :=
  C2_amended_aggregate_children_sorted_desc sortBySizeDescModel
    sortBySizeDescModel_perm sortBySizeDescModel_sorted sampleRoot (by decide)

/-! ## Scanner (`internal/fs/scanner.go`)

The filesystem is a value of type `FSNode`; directory listings carry their
children, so `os.ReadDir(path)` is the listing of the node behind `path`.
`ctx.Err()` observations and the `select` on the semaphore are answered by a
cancellation oracle `Cancel` indexed by the walked entry's path and a check
site (0 = entry check, 1 = semaphore select, 2+k = loop iteration k), so
quantifying over oracles covers every schedule of the concurrent walk.
The atomic progress counters are write-only state not read by any embedded
code path and are not modelled. -/

/-- A filesystem object as observed by the scanner. `file` and `dir` carry
the result of `de.Info()` (`none` = failed); `symlink` carries `os.Stat` of
the target (`none` = broken) and the `os.Lstat` fallback mod time; a `dir`'s
listing is the `os.ReadDir` result for its path. -/
inductive FSNode where
  | file (info : Option (Int × Int))
  | dir (info : Option Int) (listing : Except String (List (String × FSNode)))
  | symlink (statRes : Option (Int × Int)) (lstatMod : Option Int)
  | other (info : Option Int)

/-- Cancellation oracle: answers each `ctx.Err()` / `select` observation. -/
def Cancel : Type := String → Nat → Bool

/-- The scanner configuration after `NewScanner`. `shouldIgnore` abstracts the
`EqualFold`-or-glob match over the ignore patterns; the worker count only
bounds concurrency and is absorbed by the oracle. -/
structure Scanner where
  maxDepth : Int
  shouldIgnore : String → Bool
  showHidden : Bool

/-- `filepath.Join(parent, name)`. -/
def pathJoin (p n : String) : String := p ++ "/" ++ n

/-- `filepath.Base`: last component of a slash-separated path (as used here on
already-cleaned absolute paths). -/
def baseName (p : String) : String :=
  match (p.splitOn "/").reverse with
  | [] => p
  | x :: _ => if x = "" then p else x

/-- The two skip checks of the `walkDir` loop body: ignore patterns, then
dotfiles when hidden files are off. -/
def Scanner.skipName (s : Scanner) (name : String) : Bool :=
  s.shouldIgnore name || (!s.showHidden && name.startsWith ".")

def Entry.withError : Entry → String → Entry
  | .mk n p t sz m c d _ l, e => .mk n p t sz m c d e l

def Entry.withChildrenLoaded : Entry → List Entry → Entry
  | .mk n p t sz m _ d e _, cs => .mk n p t sz m cs d e true

/-- The `switch` of the `walkDir` loop body: build the child entry for one
directory entry (symlink resolution with lstat fallback, dirs and files take
`de.Info()` when available). -/
def mkChildWalk (name path : String) (d : Int) : FSNode → Entry
  | .symlink (some (sz, m)) _ => Entry.mk name path .symlink sz m [] d "" false
  | .symlink none (some lm) => Entry.mk name path .symlink 0 lm [] d "" false
  | .symlink none none => Entry.mk name path .symlink 0 0 [] d "" false
  | .dir (some m) _ => Entry.mk name path .dir 0 m [] d "" false
  | .dir none _ => Entry.mk name path .dir 0 0 [] d "" false
  | .file (some (sz, m)) => Entry.mk name path .file sz m [] d "" false
  | .file none => Entry.mk name path .file 0 0 [] d "" false
  | .other (some m) => Entry.mk name path .other 0 m [] d "" false
  | .other none => Entry.mk name path .other 0 0 [] d "" false

mutual
/-- `Scanner.walkDir(ctx, parent, sem, wg)`: checks cancellation, the depth
limit, the semaphore select, then reads the listing; a read error is recorded
on `parent`; otherwise the children are built (spawning a recursive walk per
subdirectory) and installed with `Loaded = true`. A mid-loop cancellation
discards the partial children list, exactly as the Go `return` does. -/
def walkDir (s : Scanner) (cancel : Cancel) (parent : Entry) :
    FSNode → Entry
  | .dir _info listing =>
    if cancel parent.path 0 then parent
    else if s.maxDepth > 0 ∧ parent.depth ≥ s.maxDepth then parent
    else if cancel parent.path 1 then parent
    else
      match listing with
      | .error e => parent.withError e
      | .ok ents =>
        match walkChildren s cancel parent.path parent.depth ents 0 with
        | none => parent
        | some children => parent.withChildrenLoaded children
  | .file _ => parent
  | .symlink _ _ => parent
  | .other _ => parent

/-- The `for _, de := range dirEntries` loop of `walkDir`: per-iteration
cancellation check, skip filters, child construction, recursive descent into
subdirectories. `none` = the loop was abandoned by cancellation. -/
def walkChildren (s : Scanner) (cancel : Cancel) (parentPath : String)
    (parentDepth : Int) : List (String × FSNode) → Nat → Option (List Entry)
  | [], _ => some []
  | (name, n) :: rest, k =>
    if cancel parentPath (2 + k) then none
    else if s.skipName name then
      walkChildren s cancel parentPath parentDepth rest (k + 1)
    else
      let child0 := mkChildWalk name (pathJoin parentPath name)
        (parentDepth + 1) n
      let child :=
        match n with
        | .dir _ _ => walkDir s cancel child0 n
        | _ => child0
      match walkChildren s cancel parentPath parentDepth rest (k + 1) with
      | none => none
      | some cs => some (child :: cs)
end

/-- The environment `scanSync` starts from: `filepath.Abs` resolution and
`os.Stat`/filesystem lookup of the resolved root. The subtree behind the root
is carried inside the returned `FSNode`, so later `os.ReadDir` calls of the
walk need no second lookup. -/
structure ScanEnv where
  absResolve : String → Option String
  lookup : String → Option FSNode

/-- `Scanner.scanSync(ctx, root)`: resolve the root, stat it, reject
non-directories, then walk and aggregate. Error strings stand for the
distinct Go error values. -/
def scanSync (s : Scanner) (env : ScanEnv) (cancel : Cancel)
    (sortFn : List Entry → List Entry) (root : String) : Except String Tree :=
  match env.absResolve root with
  | none => .error "filepath.Abs failed"
  | some absRoot =>
    match env.lookup absRoot with
    | none => .error "stat: no such file or directory"
    | some node =>
      match node with
      | .dir info _ =>
        let rootEntry := Entry.mk (baseName absRoot) absRoot .dir 0
          (info.getD 0) [] 0 "" false
        .ok (buildTree sortFn (walkDir s cancel rootEntry node))
      | _ => .error "scan: invalid argument"

/-- The oracle of a context that is never cancelled. -/
def neverCancel : Cancel := fun _ _ => false

/-- The oracle of a context already cancelled before the scan starts. -/
def alwaysCancel : Cancel := fun _ _ => true

/-- A sample scanner: unlimited depth, no ignore patterns, hidden shown. -/
def sampleScanner : Scanner := ⟨0, fun _ => false, true⟩

/-- A sample filesystem: a root with a file, an unreadable subdirectory and a
readable subdirectory. -/
def sampleFS : FSNode :=
  .dir (some 10) (.ok
    [("a.txt", .file (some (100, 1))),
     ("locked", .dir (some 2) (.error "permission denied")),
     ("sub", .dir (some 3) (.ok [("b.txt", .file (some (200, 4)))]))])

/-- A sample environment: absolute paths resolve to themselves and only `/r`
exists, holding `sampleFS`. -/
def sampleEnv : ScanEnv :=
  ⟨fun p => some p, fun p => if p = "/r" then some sampleFS else none⟩

/-- **C5.** Roots that cannot be resolved, do not exist, or are not
directories make `scanSync` return a terminal error and no `Tree`; every
directory root yields a `Tree` and no error, whatever per-directory read
failures occur inside; and a directory read failure is recorded on the
affected entry's `Error` field (the walk result for that entry is the entry
with the message attached, not an error of the scan). -/
theorem C5_scan_terminal_vs_recorded_errors (s : Scanner) (env : ScanEnv)
    (cancel : Cancel) (sortFn : List Entry → List Entry) (root : String) :
    (env.absResolve root = none →
      ∃ e, scanSync s env cancel sortFn root = .error e) ∧
    (∀ p, env.absResolve root = some p → env.lookup p = none →
      ∃ e, scanSync s env cancel sortFn root = .error e) ∧
    (∀ p node, env.absResolve root = some p → env.lookup p = some node →
      (∀ i l, node ≠ FSNode.dir i l) →
      ∃ e, scanSync s env cancel sortFn root = .error e) ∧
    (∀ p i l, env.absResolve root = some p →
      env.lookup p = some (FSNode.dir i l) →
      ∃ t, scanSync s env cancel sortFn root = .ok t) ∧
    (∀ (parent : Entry) i e, cancel parent.path 0 = false →
      ¬ (s.maxDepth > 0 ∧ parent.depth ≥ s.maxDepth) →
      cancel parent.path 1 = false →
      walkDir s cancel parent (.dir i (.error e)) = parent.withError e) := by
  refine ⟨?_, ?_, ?_, ?_, ?_⟩
  · intro h
    exact ⟨"filepath.Abs failed", by simp [scanSync, h]⟩
  · intro p hp hl
    exact ⟨"stat: no such file or directory", by simp [scanSync, hp, hl]⟩
  · intro p node hp hl hnd
    cases node with
    | dir i l => exact absurd rfl (hnd i l)
    | file i => exact ⟨"scan: invalid argument", by simp [scanSync, hp, hl]⟩
    | symlink a b =>
      exact ⟨"scan: invalid argument", by simp [scanSync, hp, hl]⟩
    | other i => exact ⟨"scan: invalid argument", by simp [scanSync, hp, hl]⟩
  · intro p i l hp hl
    exact ⟨buildTree sortFn (walkDir s cancel
      (Entry.mk (baseName p) p .dir 0 (i.getD 0) [] 0 "" false) (.dir i l)),
      by simp [scanSync, hp, hl]⟩
  · intro parent i e h0 hd h1
    simp [walkDir, h0, hd, h1]

theorem C5_witness :
    (∃ t, scanSync sampleScanner sampleEnv neverCancel sortBySizeDescModel
      "/r" = .ok t) ∧
    (∃ e, scanSync sampleScanner sampleEnv neverCancel sortBySizeDescModel
      "/missing" = .error e) := by
  constructor
  · exact (C5_scan_terminal_vs_recorded_errors sampleScanner sampleEnv
      neverCancel sortBySizeDescModel "/r").2.2.2.1 "/r" (some 10) _ rfl rfl
  · exact (C5_scan_terminal_vs_recorded_errors sampleScanner sampleEnv
      neverCancel sortBySizeDescModel "/missing").2.1 "/missing" rfl rfl

/-- **C6.** For every directory root and every cancellation oracle — in
particular the oracle of a context already cancelled before the scan starts —
`scanSync` returns a `Tree` and no error; under the already-cancelled oracle
the returned tree's root has no children. -/
theorem C6_cancelled_scan_returns_tree (s : Scanner) (env : ScanEnv)
    (cancel : Cancel) (sortFn : List Entry → List Entry) (root p : String)
    (i : Option Int) (l : Except String (List (String × FSNode)))
    (hperm : ∀ xs, (sortFn xs).Perm xs)
    (habs : env.absResolve root = some p)
    (hlook : env.lookup p = some (.dir i l)) :
    ∃ t, scanSync s env cancel sortFn root = .ok t ∧
      (cancel = alwaysCancel → t.root.children = []) := by
  refine ⟨buildTree sortFn (walkDir s cancel
    (Entry.mk (baseName p) p .dir 0 (i.getD 0) [] 0 "" false) (.dir i l)),
    by simp [scanSync, habs, hlook], ?_⟩
  intro hc
  subst hc
  have hwalk : walkDir s alwaysCancel
      (Entry.mk (baseName p) p .dir 0 (i.getD 0) [] 0 "" false) (.dir i l) =
      Entry.mk (baseName p) p .dir 0 (i.getD 0) [] 0 "" false := by
    simp [walkDir, alwaysCancel, Entry.path]
  rw [hwalk]
  simp only [buildTree, aggregate, aggregateChildren, reduceIte,
    Entry.children]
  exact ((hperm []).eq_nil)

theorem C6_witness :
    ∃ t, scanSync sampleScanner sampleEnv alwaysCancel sortBySizeDescModel
      "/r" = .ok t ∧ (alwaysCancel = alwaysCancel → t.root.children = []) :=
  C6_cancelled_scan_returns_tree sampleScanner sampleEnv alwaysCancel
    sortBySizeDescModel "/r" "/r" (some 10) _
    sortBySizeDescModel_perm rfl rfl

/-! ## `Scanner.LoadDir` (`internal/fs/scanner.go:262-327`) -/

/-- Set `Error` and `Loaded = true` (the `LoadDir` read-failure path). -/
def Entry.withErrorLoaded : Entry → String → Entry
  | .mk n p t sz m c d _ _, e => .mk n p t sz m c d e true

/-- The `switch` of the `LoadDir` loop body. Unlike the walk, a broken symlink
gets no lstat fallback and `TypeOther` entries get no mod time. -/
def mkChildLoad (name path : String) (d : Int) : FSNode → Entry
  | .symlink (some (sz, m)) _ => Entry.mk name path .symlink sz m [] d "" false
  | .symlink none _ => Entry.mk name path .symlink 0 0 [] d "" false
  | .dir (some m) _ => Entry.mk name path .dir 0 m [] d "" false
  | .dir none _ => Entry.mk name path .dir 0 0 [] d "" false
  | .file (some (sz, m)) => Entry.mk name path .file sz m [] d "" false
  | .file none => Entry.mk name path .file 0 0 [] d "" false
  | .other _ => Entry.mk name path .other 0 0 [] d "" false

/-- The `for _, de := range dirEntries` loop of `LoadDir`: skip filters and
single-level child construction (no recursion). -/
def loadDirChildren (s : Scanner) (path : String) (d : Int) :
    List (String × FSNode) → List Entry
  | [] => []
  | (name, n) :: rest =>
    if s.skipName name then loadDirChildren s path d rest
    else mkChildLoad name (pathJoin path name) (d + 1) n ::
      loadDirChildren s path d rest

/-- `Scanner.LoadDir(entry)`: no-op on non-directories and already-loaded
entries; a read error is recorded and `Loaded` set; otherwise children are
built, sorted by descending size, installed, and the entry's own `Size` is
set to their sum. `listing` is the `os.ReadDir(entry.Path)` result; the
returned `Option String` is the Go error return (`none` = `nil`). -/
def LoadDir (s : Scanner) (sortFn : List Entry → List Entry)
    (listing : Except String (List (String × FSNode))) (e : Entry) :
    Entry × Option String :=
  if e.type ≠ .dir ∨ e.loaded = true then (e, none)
  else
    match listing with
    | .error err => (e.withErrorLoaded err, some err)
    | .ok ents =>
      let children := sortFn (loadDirChildren s e.path e.depth ents)
      let total := (children.map Entry.size).sum
      match e with
      | .mk n p t _ m _ d err _ => (.mk n p t total m children d err true, none)

/-- **C10.** For every entry that is not a directory or whose `Loaded` flag is
already set, `LoadDir` returns `nil` and the entry unchanged, without even
consulting the filesystem: the result is the same for every `listing` — in
particular a directory whose earlier `LoadDir` failed (`Loaded = true`,
`Error` set) is never re-read and the failure never reported again. -/
theorem C10_loaddir_noop_on_loaded_or_nondir (s : Scanner)
    (sortFn : List Entry → List Entry)
    (listing : Except String (List (String × FSNode))) (e : Entry)
    (h : e.type ≠ .dir ∨ e.loaded = true) :
    LoadDir s sortFn listing e = (e, none) := by
  simp [LoadDir, h]

/-- A directory whose earlier lazy load failed: `Loaded` true, `Error` set. -/
def failedDir : Entry := Entry.mk "locked" "/r/locked" .dir 0 2 [] 1
  "permission denied" true

theorem C10_witness :
    LoadDir sampleScanner sortBySizeDescModel
      (.ok [("x", .file (some (7, 7)))]) failedDir = (failedDir, none) ∧
    LoadDir sampleScanner sortBySizeDescModel (.error "io error")
      failedDir = (failedDir, none) :=
  ⟨C10_loaddir_noop_on_loaded_or_nondir sampleScanner sortBySizeDescModel
      _ failedDir (Or.inr (by decide)),
    C10_loaddir_noop_on_loaded_or_nondir sampleScanner sortBySizeDescModel
      _ failedDir (Or.inr (by decide))⟩

/-! ## Index paths into entry trees

`LoadDir` mutates one entry inside a larger tree; the mutation is modelled as
a functional rewrite at an index path (the position of the entry in nested
`Children` lists). -/

/-- The entry at an index path (`default` when out of bounds). -/
def entryAt : Entry → List Nat → Entry
  | e, [] => e
  | e, i :: rest => entryAt (e.children.getD i default) rest

/-- Whether an index path denotes an existing entry. -/
def validPath : Entry → List Nat → Bool
  | _, [] => true
  | e, i :: rest =>
    decide (i < e.children.length) &&
      validPath (e.children.getD i default) rest

/-- Rewrite the subtree at an index path with `f`, leaving all other nodes in
place (a pointer mutation seen functionally). -/
def updateAt : Entry → List Nat → (Entry → Entry) → Entry
  | e, [], f => f e
  | .mk n p t sz m cs d err l, i :: rest, f =>
    .mk n p t sz m (cs.set i (updateAt (cs.getD i default) rest f)) d err l

theorem getD_set_self (l : List Entry) (i : Nat) (x d : Entry)
    (h : i < l.length) : (l.set i x).getD i d = x := by
  rw [List.getD_eq_getElem?_getD, List.getElem?_set_self]
  · simp
  · simpa using h

theorem getD_set_ne (l : List Entry) (i j : Nat) (x d : Entry) (h : i ≠ j) :
    (l.set i x).getD j d = l.getD j d := by
  rw [List.getD_eq_getElem?_getD, List.getElem?_set_ne h,
    ← List.getD_eq_getElem?_getD]

/-- Updating at a valid path rewrites exactly the addressed entry. -/
theorem entryAt_updateAt (p : List Nat) (t : Entry) (f : Entry → Entry)
    (h : validPath t p = true) :
    entryAt (updateAt t p f) p = f (entryAt t p) := by
  induction p generalizing t with
  | nil =>
    match t with
    | .mk n pp ty sz m cs d err l => rfl
  | cons i rest ih =>
    match t with
    | .mk n pp ty sz m cs d err l =>
      rw [validPath, Bool.and_eq_true, decide_eq_true_eq] at h
      show entryAt ((cs.set i
        (updateAt (cs.getD i default) rest f)).getD i default) rest =
        f (entryAt (Entry.children (.mk n pp ty sz m cs d err l) |>.getD i
          default) rest)
      rw [getD_set_self _ _ _ _ (by simpa [Entry.children] using h.1)]
      exact ih _ (by simpa [Entry.children] using h.2)

/-- Every entry not inside the updated subtree keeps its `Size` (ancestors
included: only their `Children` pointers change along the path). -/
theorem updateAt_size_frame (p : List Nat) (t : Entry) (f : Entry → Entry)
    (q : List Nat) (h : ¬ p <+: q) :
    (entryAt (updateAt t p f) q).size = (entryAt t q).size := by
  induction p generalizing q t with
  | nil => exact absurd (List.nil_prefix) h
  | cons i rest ih =>
    match t with
    | .mk n pp ty sz m cs d err l =>
      match q with
      | [] => rfl
      | j :: qrest =>
        by_cases hij : i = j
        · subst hij
          have h' : ¬ rest <+: qrest := by
            intro hh
            exact h (List.cons_prefix_cons.mpr ⟨rfl, hh⟩)
          show (entryAt ((cs.set i
            (updateAt (cs.getD i default) rest f)).getD i default) qrest).size
            = _
          by_cases hlen : i < cs.length
          · rw [getD_set_self _ _ _ _ hlen]
            exact ih _ _ h'
          · rw [List.set_eq_of_length_le (Nat.le_of_not_lt hlen)]
            rfl
        · show (entryAt ((cs.set i
            (updateAt (cs.getD i default) rest f)).getD j default) qrest).size
            = _
          rw [getD_set_ne _ _ _ _ _ hij]
          rfl

/-- **C7.** Loading a not-yet-loaded directory at a valid position `p` of a
tree sets exactly that entry's `Size` to the sum of its now-known children's
`Size`s and installs the children sorted non-increasing by `Size`, returning
no error; the `Size` of every entry not inside the loaded subtree — in
particular every ancestor of the loaded directory — is unchanged. -/
theorem C7_loaddir_size_sort_and_frame (s : Scanner)
    (sortFn : List Entry → List Entry)
    (hsorted : ∀ l, sortedBySizeDesc (sortFn l))
    (ents : List (String × FSNode)) (t : Entry) (p : List Nat)
    (hv : validPath t p = true)
    (hdir : (entryAt t p).type = .dir) (hnl : (entryAt t p).loaded = false) :
    ((entryAt (updateAt t p
        (fun e => (LoadDir s sortFn (.ok ents) e).1)) p).size =
      ((entryAt (updateAt t p
        (fun e => (LoadDir s sortFn (.ok ents) e).1)) p).children.map
          Entry.size).sum) ∧
    sortedBySizeDesc (entryAt (updateAt t p
      (fun e => (LoadDir s sortFn (.ok ents) e).1)) p).children ∧
    (LoadDir s sortFn (.ok ents) (entryAt t p)).2 = none ∧
    (∀ q, ¬ p <+: q →
      (entryAt (updateAt t p
        (fun e => (LoadDir s sortFn (.ok ents) e).1)) q).size =
      (entryAt t q).size) := by
  have hupd := entryAt_updateAt p t
    (fun e => (LoadDir s sortFn (.ok ents) e).1) hv
  have hcond : ¬ ((entryAt t p).type ≠ .dir ∨ (entryAt t p).loaded = true) := by
    simp [hdir, hnl]
  refine ⟨?_, ?_, ?_, fun q hq => updateAt_size_frame p t _ q hq⟩
  · rw [hupd]
    match hm : entryAt t p with
    | .mk n pp ty sz m cs d err l =>
      rw [hm] at hcond
      simp only [LoadDir, if_neg hcond]
      rfl
  · rw [hupd]
    match hm : entryAt t p with
    | .mk n pp ty sz m cs d err l =>
      rw [hm] at hcond
      simp only [LoadDir, if_neg hcond]
      exact hsorted _
  · match hm : entryAt t p with
    | .mk n pp ty sz m cs d err l =>
      rw [hm] at hcond
      simp only [LoadDir, if_neg hcond]

/-- A tree with an unloaded subdirectory at index path `[0]`. -/
def lazyRoot : Entry :=
  Entry.mk "root" "/r" .dir 100 0
    [Entry.mk "sub" "/r/sub" .dir 40 0 [] 1 "" false,
     Entry.mk "a" "/r/a" .file 60 0 [] 1 "" false]
    0 "" true

theorem C7_witness :
    ((entryAt (updateAt lazyRoot [0]
        (fun e => (LoadDir sampleScanner sortBySizeDescModel
          (.ok [("x", .file (some (7, 7))), ("y", .file (some (3, 3)))])
          e).1)) [0]).size =
      ((entryAt (updateAt lazyRoot [0]
        (fun e => (LoadDir sampleScanner sortBySizeDescModel
          (.ok [("x", .file (some (7, 7))), ("y", .file (some (3, 3)))])
          e).1)) [0]).children.map Entry.size).sum) ∧
    sortedBySizeDesc (entryAt (updateAt lazyRoot [0]
      (fun e => (LoadDir sampleScanner sortBySizeDescModel
        (.ok [("x", .file (some (7, 7))), ("y", .file (some (3, 3)))])
        e).1)) [0]).children ∧
    (LoadDir sampleScanner sortBySizeDescModel
      (.ok [("x", .file (some (7, 7))), ("y", .file (some (3, 3)))])
      (entryAt lazyRoot [0])).2 = none ∧
    (∀ q, ¬ [0] <+: q →
      (entryAt (updateAt lazyRoot [0]
        (fun e => (LoadDir sampleScanner sortBySizeDescModel
          (.ok [("x", .file (some (7, 7))), ("y", .file (some (3, 3)))])
          e).1)) q).size = (entryAt lazyRoot q).size) :=
  C7_loaddir_size_sort_and_frame sampleScanner sortBySizeDescModel
    sortBySizeDescModel_sorted _ lazyRoot [0] (by decide) (by decide)
    (by decide)

/-! ## Depth invariant (claim C8) -/

theorem depthOKList_iff (l : List Entry) :
    depthOKList l = true ↔ ∀ e ∈ l, depthOK e = true := by
  induction l with
  | nil => simp [depthOKList]
  | cons c cs ih => simp [depthOKList, ih, Bool.and_eq_true]

theorem depthOK_of_childless (e : Entry) (h : e.children = []) :
    depthOK e = true := by
  match e with
  | .mk n p t sz m c d err l =>
    simp only [Entry.children] at h
    subst h
    simp [depthOK, depthOKList]

theorem depthOK_mk_iff (n p : String) (ty : EntryType) (sz m : Int)
    (cs : List Entry) (d : Int) (err : String) (l : Bool) :
    depthOK (.mk n p ty sz m cs d err l) = true ↔
      (∀ c ∈ cs, c.depth = d + 1) ∧ ∀ c ∈ cs, depthOK c = true := by
  simp [depthOK, Bool.and_eq_true, List.all_eq_true, depthOKList_iff]

theorem withError_depth (e : Entry) (msg : String) :
    (e.withError msg).depth = e.depth := by
  cases e
  rfl

theorem withError_children (e : Entry) (msg : String) :
    (e.withError msg).children = e.children := by
  cases e
  rfl

theorem withChildrenLoaded_depth (e : Entry) (cs : List Entry) :
    (e.withChildrenLoaded cs).depth = e.depth := by
  cases e
  rfl

/-- `aggregate` never changes an entry's `Depth`. -/
theorem aggregate_depth (sortFn : List Entry → List Entry) (e : Entry)
    (st : AggState) : (aggregate sortFn e st).1.depth = e.depth := by
  match e with
  | .mk n p ty sz m cs d err l =>
    by_cases hty : ty = EntryType.dir <;> simp [aggregate, hty, Entry.depth]

mutual
theorem depthOK_aggregate (sortFn : List Entry → List Entry)
    (hperm : ∀ l, (sortFn l).Perm l) (e : Entry)
    (h : depthOK e = true) (st : AggState) :
    depthOK (aggregate sortFn e st).1 = true := by
  match e with
  | .mk n p ty sz m cs d err l =>
    rw [depthOK_mk_iff] at h
    by_cases hty : ty = EntryType.dir
    · have hc := depthOK_aggregateChildren sortFn hperm cs h.2
        { st with dirCount := st.dirCount + 1 }
      subst hty
      simp only [aggregate, reduceIte]
      rw [depthOK_mk_iff]
      constructor
      · intro c hcm
        have hmem := (hperm _).mem_iff.mp hcm
        have hdep : c.depth ∈ (aggregateChildren sortFn cs
            { st with dirCount := st.dirCount + 1 }).1.map Entry.depth :=
          List.mem_map_of_mem Entry.depth hmem
        rw [hc.2] at hdep
        obtain ⟨c0, hc0, hc0d⟩ := List.mem_map.mp hdep
        rw [← hc0d]
        exact h.1 c0 hc0
      · intro c hcm
        exact (depthOKList_iff _).mp hc.1 c ((hperm _).mem_iff.mp hcm)
    · simp only [aggregate, if_neg hty]
      rw [depthOK_mk_iff]
      exact ⟨h.1, h.2⟩

theorem depthOK_aggregateChildren (sortFn : List Entry → List Entry)
    (hperm : ∀ l, (sortFn l).Perm l) (cs : List Entry)
    (h : ∀ c ∈ cs, depthOK c = true) (st : AggState) :
    depthOKList (aggregateChildren sortFn cs st).1 = true ∧
    (aggregateChildren sortFn cs st).1.map Entry.depth =
      cs.map Entry.depth := by
  match cs with
  | [] => simp [aggregateChildren, depthOKList]
  | c :: cs' =>
    have h1 := depthOK_aggregate sortFn hperm c (h c (by simp)) st
    have h2 := depthOK_aggregateChildren sortFn hperm cs'
      (fun x hx => h x (by simp [hx])) (aggregate sortFn c st).2
    simp only [aggregateChildren, depthOKList, Bool.and_eq_true,
      List.map_cons]
    exact ⟨⟨h1, h2.1⟩, by rw [h2.2, aggregate_depth]⟩
end

/-- `walkDir` never changes the walked entry's `Depth`. -/
theorem walkDir_depth (s : Scanner) (cancel : Cancel) (parent : Entry)
    (node : FSNode) : (walkDir s cancel parent node).depth = parent.depth := by
  cases node with
  | dir i l =>
    cases l with
    | error e =>
      rw [walkDir.eq_1]
      split
      · rfl
      · split
        · rfl
        · split
          · rfl
          · exact withError_depth parent e
    | ok ents =>
      rw [walkDir.eq_2]
      split
      · rfl
      · split
        · rfl
        · split
          · rfl
          · generalize walkChildren s cancel parent.path parent.depth ents 0
              = w
            cases w with
            | none => rfl
            | some cs => exact withChildrenLoaded_depth parent cs
  | file i => rfl
  | symlink a b => rfl
  | other i => rfl

theorem mkChildWalk_depth (name path : String) (d : Int) (n : FSNode) :
    (mkChildWalk name path d n).depth = d := by
  match n with
  | .symlink (some (sz, m)) _ => rfl
  | .symlink none (some lm) => rfl
  | .symlink none none => rfl
  | .dir (some m) _ => rfl
  | .dir none _ => rfl
  | .file (some (sz, m)) => rfl
  | .file none => rfl
  | .other (some m) => rfl
  | .other none => rfl

theorem mkChildWalk_children (name path : String) (d : Int) (n : FSNode) :
    (mkChildWalk name path d n).children = [] := by
  match n with
  | .symlink (some (sz, m)) _ => rfl
  | .symlink none (some lm) => rfl
  | .symlink none none => rfl
  | .dir (some m) _ => rfl
  | .dir none _ => rfl
  | .file (some (sz, m)) => rfl
  | .file none => rfl
  | .other (some m) => rfl
  | .other none => rfl

mutual
theorem depthOK_walkDir (s : Scanner) (cancel : Cancel) (parent : Entry)
    (node : FSNode) (h : parent.children = []) :
    depthOK (walkDir s cancel parent node) = true := by
  cases node with
  | dir i l =>
    cases l with
    | error e =>
      rw [walkDir.eq_1]
      split
      · exact depthOK_of_childless parent h
      · split
        · exact depthOK_of_childless parent h
        · split
          · exact depthOK_of_childless parent h
          · exact depthOK_of_childless _ (by rw [withError_children, h])
    | ok ents =>
      rw [walkDir.eq_2]
      split
      · exact depthOK_of_childless parent h
      · split
        · exact depthOK_of_childless parent h
        · split
          · exact depthOK_of_childless parent h
          · generalize hw : walkChildren s cancel parent.path parent.depth
              ents 0 = w
            cases w with
            | none => exact depthOK_of_childless parent h
            | some cs =>
              have hc := depthOK_walkChildren s cancel parent.path
                parent.depth ents 0 cs hw
              match parent with
              | .mk n p t sz m c d err ld =>
                show depthOK (Entry.mk n p t sz m cs d err true) = true
                rw [depthOK_mk_iff]
                exact ⟨fun c hcm => (hc c hcm).1, fun c hcm => (hc c hcm).2⟩
  | file i => exact depthOK_of_childless parent h
  | symlink a b => exact depthOK_of_childless parent h
  | other i => exact depthOK_of_childless parent h

theorem depthOK_walkChildren (s : Scanner) (cancel : Cancel) (pp : String)
    (pd : Int) (ents : List (String × FSNode)) (k : Nat) (cs : List Entry)
    (hw : walkChildren s cancel pp pd ents k = some cs) :
    ∀ c ∈ cs, c.depth = pd + 1 ∧ depthOK c = true := by
  match ents with
  | [] =>
    rw [walkChildren] at hw
    injection hw with hw
    subst hw
    intro c hc
    exact absurd hc (List.not_mem_nil c)
  | (name, n) :: rest =>
    rw [walkChildren] at hw
    split at hw
    · exact absurd hw (by simp)
    · split at hw
      · exact depthOK_walkChildren s cancel pp pd rest (k + 1) cs hw
      · revert hw
        cases hrest : walkChildren s cancel pp pd rest (k + 1) with
        | none => intro hw; exact absurd hw (by simp)
        | some cs' =>
          intro hw
          injection hw with hw
          subst hw
          intro c hc
          have hrest' := depthOK_walkChildren s cancel pp pd rest (k + 1)
            cs' hrest
          rcases List.mem_cons.mp hc with heq | hmem
          · subst heq
            cases n with
            | dir di dl =>
              constructor
              · rw [walkDir_depth, mkChildWalk_depth]
              · exact depthOK_walkDir s cancel _ _ (mkChildWalk_children _ _ _ _)
            | file fi => exact ⟨mkChildWalk_depth _ _ _ _,
                depthOK_of_childless _ (mkChildWalk_children _ _ _ _)⟩
            | symlink sa sb => exact ⟨mkChildWalk_depth _ _ _ _,
                depthOK_of_childless _ (mkChildWalk_children _ _ _ _)⟩
            | other oi => exact ⟨mkChildWalk_depth _ _ _ _,
                depthOK_of_childless _ (mkChildWalk_children _ _ _ _)⟩
          · exact hrest' c hmem
end

theorem mkChildLoad_depth (name path : String) (d : Int) (n : FSNode) :
    (mkChildLoad name path d n).depth = d := by
  match n with
  | .symlink (some (sz, m)) _ => rfl
  | .symlink none _ => rfl
  | .dir (some m) _ => rfl
  | .dir none _ => rfl
  | .file (some (sz, m)) => rfl
  | .file none => rfl
  | .other _ => rfl

theorem mkChildLoad_children (name path : String) (d : Int) (n : FSNode) :
    (mkChildLoad name path d n).children = [] := by
  match n with
  | .symlink (some (sz, m)) _ => rfl
  | .symlink none _ => rfl
  | .dir (some m) _ => rfl
  | .dir none _ => rfl
  | .file (some (sz, m)) => rfl
  | .file none => rfl
  | .other _ => rfl

theorem loadDirChildren_mem (s : Scanner) (path : String) (d : Int)
    (ents : List (String × FSNode)) :
    ∀ c ∈ loadDirChildren s path d ents, c.depth = d + 1 ∧
      depthOK c = true := by
  induction ents with
  | nil => intro c hc; exact absurd hc (List.not_mem_nil c)
  | cons e rest ih =>
    intro c hc
    match e with
    | (name, n) =>
      rw [loadDirChildren] at hc
      split at hc
      · exact ih c hc
      · rcases List.mem_cons.mp hc with heq | hmem
        · subst heq
          exact ⟨mkChildLoad_depth _ _ _ _,
            depthOK_of_childless _ (mkChildLoad_children _ _ _ _)⟩
        · exact ih c hmem

/-- `LoadDir` never changes the loaded entry's `Depth`. -/
theorem LoadDir_depth (s : Scanner) (sortFn : List Entry → List Entry)
    (listing : Except String (List (String × FSNode))) (e : Entry) :
    (LoadDir s sortFn listing e).1.depth = e.depth := by
  rw [LoadDir.eq_def]
  split
  · rfl
  · cases listing with
    | error err => exact (by cases e; rfl :
        (e.withErrorLoaded err).depth = e.depth)
    | ok ents =>
      match e with
      | .mk n p t sz m c d err l => rfl

/-- `LoadDir` preserves the depth invariant of the loaded entry's subtree. -/
theorem depthOK_LoadDir (s : Scanner) (sortFn : List Entry → List Entry)
    (hperm : ∀ l, (sortFn l).Perm l)
    (listing : Except String (List (String × FSNode))) (e : Entry)
    (h : depthOK e = true) : depthOK (LoadDir s sortFn listing e).1 = true := by
  rw [LoadDir.eq_def]
  split
  · exact h
  · cases listing with
    | error err =>
      match e with
      | .mk n p t sz m c d err0 l =>
        rw [depthOK_mk_iff] at h
        show depthOK (Entry.mk n p t sz m c d err true) = true
        rw [depthOK_mk_iff]
        exact h
    | ok ents =>
      match e with
      | .mk n p t sz m c d err l =>
        show depthOK (Entry.mk n p t
          ((sortFn (loadDirChildren s p d ents)).map Entry.size).sum m
          (sortFn (loadDirChildren s p d ents)) d err true) = true
        rw [depthOK_mk_iff]
        have hmem : ∀ x ∈ sortFn (loadDirChildren s p d ents),
            x.depth = d + 1 ∧ depthOK x = true := by
          intro x hx
          exact loadDirChildren_mem s _ _ _ x ((hperm _).mem_iff.mp hx)
        exact ⟨fun x hx => (hmem x hx).1, fun x hx => (hmem x hx).2⟩

/-- `updateAt` with a depth-preserving rewrite keeps the subtree root depth. -/
theorem updateAt_depth (f : Entry → Entry)
    (hdepth : ∀ e, (f e).depth = e.depth) (p : List Nat) (t : Entry) :
    (updateAt t p f).depth = t.depth := by
  cases p with
  | nil =>
    match t with
    | .mk n pp ty sz m cs d err l => exact hdepth _
  | cons i rest =>
    match t with
    | .mk n pp ty sz m cs d err l => rfl

/-- Rewriting one subtree with a depth-invariant-preserving, depth-preserving
function preserves the depth invariant of the whole tree. -/
theorem depthOK_updateAt (f : Entry → Entry)
    (hdepth : ∀ e, (f e).depth = e.depth)
    (hok : ∀ e, depthOK e = true → depthOK (f e) = true) (p : List Nat)
    (t : Entry) (h : depthOK t = true) :
    depthOK (updateAt t p f) = true := by
  induction p generalizing t with
  | nil =>
    match t with
    | .mk n pp ty sz m cs d err l => exact hok _ h
  | cons i rest ih =>
    match t with
    | .mk n pp ty sz m cs d err l =>
      by_cases hlen : i < cs.length
      · rw [depthOK_mk_iff] at h
        show depthOK (Entry.mk n pp ty sz m
          (cs.set i (updateAt (cs.getD i default) rest f)) d err l) = true
        rw [depthOK_mk_iff]
        have hgm : cs.getD i default ∈ cs := by
          rw [List.getD_eq_getElem?_getD, List.getElem?_eq_getElem hlen]
          exact List.getElem_mem hlen
        constructor
        · intro c hc
          rcases List.mem_or_eq_of_mem_set hc with hmem | heq
          · exact h.1 c hmem
          · subst heq
            rw [updateAt_depth f hdepth]
            exact h.1 _ hgm
        · intro c hc
          rcases List.mem_or_eq_of_mem_set hc with hmem | heq
          · exact h.2 c hmem
          · subst heq
            exact ih _ (h.2 _ hgm)
      · show depthOK (Entry.mk n pp ty sz m
          (cs.set i (updateAt (cs.getD i default) rest f)) d err l) = true
        rw [List.set_eq_of_length_le (Nat.le_of_not_lt hlen)]
        exact h

/-- **C8.** With any sort satisfying `sort.Slice`'s contract: a successful
`scanSync` returns a tree whose root has `Depth = 0` and in which every child
has `Depth` one more than its parent, recursively; and rewriting any position
of any tree by `LoadDir` (with any listing) preserves that invariant — so it
holds after any sequence of scans and lazy loads. -/
theorem C8_depth_invariant (sortFn : List Entry → List Entry)
    (hperm : ∀ l, (sortFn l).Perm l) :
    (∀ (s : Scanner) (env : ScanEnv) (cancel : Cancel) (root : String)
      (t : Tree), scanSync s env cancel sortFn root = .ok t →
      t.root.depth = 0 ∧ depthOK t.root = true) ∧
    (∀ (s : Scanner) (listing : Except String (List (String × FSNode)))
      (t0 : Entry) (p : List Nat), depthOK t0 = true →
      depthOK (updateAt t0 p
        (fun e => (LoadDir s sortFn listing e).1)) = true) := by
  constructor
  · intro s env cancel root t hscan
    rw [scanSync] at hscan
    cases habs : env.absResolve root with
    | none => rw [habs] at hscan; exact absurd hscan (by simp)
    | some p =>
      rw [habs] at hscan
      dsimp only at hscan
      cases hlook : env.lookup p with
      | none => rw [hlook] at hscan; exact absurd hscan (by simp)
      | some node =>
        rw [hlook] at hscan
        dsimp only at hscan
        cases node with
        | file i => exact absurd hscan (by simp)
        | symlink a b => exact absurd hscan (by simp)
        | other i => exact absurd hscan (by simp)
        | dir i l =>
          simp only [Except.ok.injEq] at hscan
          subst hscan
          have hroot : (buildTree sortFn (walkDir s cancel
              (Entry.mk (baseName p) p .dir 0 (i.getD 0) [] 0 "" false)
              (.dir i l))).root =
              (aggregate sortFn (walkDir s cancel
                (Entry.mk (baseName p) p .dir 0 (i.getD 0) [] 0 "" false)
                (.dir i l)) AggState.init).1 := rfl

          rw [hroot]
          constructor
          · rw [aggregate_depth, walkDir_depth]
            rfl
          · exact depthOK_aggregate sortFn hperm _
              (depthOK_walkDir s cancel
                (Entry.mk (baseName p) p .dir 0 (Option.getD i 0) [] 0 ""
                  false) (.dir i l) rfl) AggState.init
  · intro s listing t0 p h
    exact depthOK_updateAt _ (LoadDir_depth s sortFn listing)
      (depthOK_LoadDir s sortFn hperm listing) p t0 h

theorem C8_witness :
    ((∃ t, scanSync sampleScanner sampleEnv neverCancel sortBySizeDescModel
        "/r" = .ok t ∧ t.root.depth = 0 ∧ depthOK t.root = true)) ∧
    depthOK (updateAt lazyRoot [0]
      (fun e => (LoadDir sampleScanner sortBySizeDescModel
        (.ok [("x", .file (some (7, 7)))]) e).1)) = true := by
  constructor
  · obtain ⟨t, ht⟩ := (C5_scan_terminal_vs_recorded_errors sampleScanner
      sampleEnv neverCancel sortBySizeDescModel "/r").2.2.2.1 "/r" (some 10)
      _ rfl rfl
    exact ⟨t, ht, (C8_depth_invariant sortBySizeDescModel
      sortBySizeDescModel_perm).1 sampleScanner sampleEnv neverCancel
      "/r" t ht⟩
  · exact (C8_depth_invariant sortBySizeDescModel
      sortBySizeDescModel_perm).2 sampleScanner _ lazyRoot [0] (by decide)

/-! ## Layout options and the shared height mapping (claim C4)

Float arithmetic is modelled over `ℚ`. `math.Log2` has no computable exact
model; it is a parameter `log2f` of the embedding, and the properties of the
real function that the claims rely on — monotonicity and unboundedness — are
hypotheses of the theorems (both hold of the ideal `log₂` and of its rounded
`float64` evaluation on the representable range). -/

/-- Go `layout.Mode`. -/
inductive Mode where
  | mapV
  | treeV
deriving DecidableEq, Repr

/-- Go `layout.Options`. `ExpandedPaths map[string]bool` is a `nil`-able set;
lookup of a missing key is `false`. -/
structure Options where
  mode : Mode
  maxDepth : Int
  paddingRatio : ℚ
  heightScale : ℚ
  minHeight : ℚ
  maxHeight : ℚ
  expandedPaths : Option (List String)

/-- `opts.ExpandedPaths == nil || opts.ExpandedPaths[path]`. -/
def Options.isExpanded (opts : Options) (path : String) : Bool :=
  match opts.expandedPaths with
  | none => true
  | some l => l.contains path

/-- `scaleHeight(size, opts)` (`internal/layout`, shared by both algorithms):
logarithmic scaling with clamping, `MinHeight` for non-positive sizes. -/
def scaleHeight (log2f : ℚ → ℚ) (size : Int) (opts : Options) : ℚ :=
  if size ≤ 0 then opts.minHeight
  else
    let sizeKB : ℚ := (size : ℚ) / 1024
    let h := log2f (sizeKB + 1) * opts.heightScale
    let h1 := if h < opts.minHeight then opts.minHeight else h
    if h1 > opts.maxHeight then opts.maxHeight else h1

/-- For positive sizes `scaleHeight` is the clamp of the log formula (needs
`MinHeight ≤ MaxHeight`, as the code raises to `MinHeight` before capping). -/
theorem scaleHeight_pos_eq_clamp (log2f : ℚ → ℚ) (opts : Options)
    (hmm : opts.minHeight ≤ opts.maxHeight) (s : Int) (hs : 0 < s) :
    scaleHeight log2f s opts =
      min opts.maxHeight (max opts.minHeight
        (log2f ((s : ℚ) / 1024 + 1) * opts.heightScale)) := by
  rw [scaleHeight, if_neg (by omega)]
  dsimp only
  split_ifs with h1 h2 h2 <;>
    · simp only [min_def, max_def]
      split_ifs <;> linarith

/-- `scaleHeight` always lands in `[MinHeight, MaxHeight]` on the right of the
zero case. -/
theorem scaleHeight_ge_min (log2f : ℚ → ℚ) (opts : Options)
    (hmm : opts.minHeight ≤ opts.maxHeight) (s : Int) :
    opts.minHeight ≤ scaleHeight log2f s opts := by
  by_cases hs : s ≤ 0
  · rw [scaleHeight, if_pos hs]
  · rw [scaleHeight_pos_eq_clamp log2f opts hmm s (by omega)]
    exact le_min hmm (le_max_left _ _)

/-- **C4 counterexample.** `flatOpts` satisfies the claim's hypotheses
(`MinHeight ≤ MaxHeight`, non-negative `HeightScale`) but with
`HeightScale = 0` every size maps to `MinHeight = 1/10 ≠ 20 = MaxHeight`,
whatever function stands for `log2`: no size, however large, clamps to
`MaxHeight`, so the claim's eventual-clamp conjunct is false as stated. -/
def flatOpts : Options :=
  { mode := .mapV, maxDepth := 0, paddingRatio := 1/50, heightScale := 0,
    minHeight := 1/10, maxHeight := 20, expandedPaths := none }

theorem C4_counterexample :
    0 ≤ flatOpts.heightScale ∧ flatOpts.minHeight ≤ flatOpts.maxHeight ∧
    (∀ (f : ℚ → ℚ) (s : Int), scaleHeight f s flatOpts =
      flatOpts.minHeight) ∧
    flatOpts.minHeight ≠ flatOpts.maxHeight := by
  refine ⟨by norm_num [flatOpts], by norm_num [flatOpts], ?_, by
    norm_num [flatOpts]⟩
  intro f s
  by_cases hs : s ≤ 0
  · rw [scaleHeight, if_pos hs]
  · rw [scaleHeight, if_neg hs]
    dsimp only
    norm_num [flatOpts]

/-- **C4 (amended).** For `MinHeight ≤ MaxHeight` and non-negative
`HeightScale`, and any monotone unbounded model of `log2`: `scaleHeight` is
monotone non-decreasing in size; zero and negative sizes map to `MinHeight`;
positive sizes follow `clamp(log2(sizeKB+1)·HeightScale, MinHeight,
MaxHeight)`; and if `HeightScale` is **strictly positive** all sufficiently
large sizes clamp to `MaxHeight` (with `HeightScale = 0` the height is
constant `MinHeight`, which is what the counterexample exhibits). -/
theorem C4_amended_scaleHeight (log2f : ℚ → ℚ) (hmono : Monotone log2f)
    (hunb : ∀ M : ℚ, ∃ x : ℚ, M ≤ log2f x) (opts : Options)
    (hmm : opts.minHeight ≤ opts.maxHeight) (hhs : 0 ≤ opts.heightScale) :
    (∀ s1 s2 : Int, s1 ≤ s2 →
      scaleHeight log2f s1 opts ≤ scaleHeight log2f s2 opts) ∧
    scaleHeight log2f 0 opts = opts.minHeight ∧
    (∀ s : Int, s ≤ 0 → scaleHeight log2f s opts = opts.minHeight) ∧
    (∀ s : Int, 0 < s → scaleHeight log2f s opts =
      min opts.maxHeight (max opts.minHeight
        (log2f ((s : ℚ) / 1024 + 1) * opts.heightScale))) ∧
    (0 < opts.heightScale →
      ∃ N : Int, ∀ s : Int, N ≤ s →
        scaleHeight log2f s opts = opts.maxHeight) := by
  refine ⟨?_, by rw [scaleHeight]; norm_num, fun s hs => by
    rw [scaleHeight, if_pos hs], fun s hs =>
    scaleHeight_pos_eq_clamp log2f opts hmm s hs, ?_⟩
  · intro s1 s2 h12
    by_cases h1 : s1 ≤ 0
    · rw [scaleHeight, if_pos h1]
      exact scaleHeight_ge_min log2f opts hmm s2
    · have h2 : ¬ s2 ≤ 0 := by omega
      rw [scaleHeight_pos_eq_clamp log2f opts hmm s1 (by omega),
        scaleHeight_pos_eq_clamp log2f opts hmm s2 (by omega)]
      have hlog : log2f ((s1 : ℚ) / 1024 + 1) ≤ log2f ((s2 : ℚ) / 1024 + 1) := by
        apply hmono
        have : (s1 : ℚ) ≤ (s2 : ℚ) := by exact_mod_cast h12
        linarith
      have hmul : log2f ((s1 : ℚ) / 1024 + 1) * opts.heightScale ≤
          log2f ((s2 : ℚ) / 1024 + 1) * opts.heightScale :=
        mul_le_mul_of_nonneg_right hlog hhs
      exact min_le_min le_rfl (max_le_max le_rfl hmul)
  · intro hpos
    obtain ⟨x0, hx0⟩ := hunb (opts.maxHeight / opts.heightScale)
    refine ⟨max 1 ⌈1024 * (x0 - 1)⌉, fun s hs => ?_⟩
    have hs1 : (1 : Int) ≤ s := le_trans (le_max_left _ _) hs
    have hsc : ⌈1024 * (x0 - 1)⌉ ≤ s := le_trans (le_max_right _ _) hs
    have hsq : 1024 * (x0 - 1) ≤ (s : ℚ) :=
      le_trans (Int.le_ceil _) (by exact_mod_cast hsc)
    have hx : x0 ≤ (s : ℚ) / 1024 + 1 := by linarith
    have hlog : opts.maxHeight / opts.heightScale ≤
        log2f ((s : ℚ) / 1024 + 1) := le_trans hx0 (hmono hx)
    have hmul : opts.maxHeight ≤
        log2f ((s : ℚ) / 1024 + 1) * opts.heightScale :=
      (div_le_iff₀ hpos).mp hlog
    rw [scaleHeight_pos_eq_clamp log2f opts hmm s (by omega)]
    rw [max_eq_right (le_trans hmm hmul), min_eq_left hmul]

/-- Go `DefaultOptions(mode)`: `PaddingRatio 0.02`, `HeightScale 1.0`,
`MinHeight 0.1`, `MaxHeight 20.0`, no `ExpandedPaths`. -/
def DefaultOptions (mode : Mode) : Options :=
  { mode := mode, maxDepth := 0, paddingRatio := 1/50, heightScale := 1,
    minHeight := 1/10, maxHeight := 20, expandedPaths := none }

def defaultTestOpts : Options := DefaultOptions .mapV

theorem C4_witness :
    (∀ s1 s2 : Int, s1 ≤ s2 →
      scaleHeight id s1 defaultTestOpts ≤ scaleHeight id s2 defaultTestOpts) ∧
    scaleHeight id 0 defaultTestOpts = defaultTestOpts.minHeight ∧
    (∀ s : Int, s ≤ 0 →
      scaleHeight id s defaultTestOpts = defaultTestOpts.minHeight) ∧
    (∀ s : Int, 0 < s → scaleHeight id s defaultTestOpts =
      min defaultTestOpts.maxHeight (max defaultTestOpts.minHeight
        (id ((s : ℚ) / 1024 + 1) * defaultTestOpts.heightScale))) ∧
    (0 < defaultTestOpts.heightScale →
      ∃ N : Int, ∀ s : Int, N ≤ s →
        scaleHeight id s defaultTestOpts = defaultTestOpts.maxHeight) :=
  C4_amended_scaleHeight id monotone_id (fun M => ⟨M, le_refl M⟩)
    defaultTestOpts (by norm_num [defaultTestOpts, DefaultOptions])
    (by norm_num [defaultTestOpts, DefaultOptions])

/-! ## Layout node model and squarified treemap (`internal/layout/mapv.go`)

Positions and extents are `ℚ` triples. The `internal/color` package is not
part of the embedded core; color values are kept symbolic (`LColor`) as the
constructor applied to the inputs the code derives the color from. -/

structure Vec3 where
  x : ℚ
  y : ℚ
  z : ℚ
deriving DecidableEq, Repr

/-- Symbolic display colors (`color.DirColor`, `color.FileColor`,
`color.ColorFromAge(mod)`, `color.ColorFromSize(size, maxSize)`). -/
inductive LColor where
  | dirColor
  | fileColor
  | fromAge (mod : Int)
  | fromSize (size maxSize : Int)
deriving DecidableEq, Repr

/-- Go `layout.Rect2D`. -/
structure Rect2D where
  x : ℚ
  y : ℚ
  w : ℚ
  h : ℚ
deriving DecidableEq, Repr

/-- Go `layout.Node`: Entry, Position (center), Size (extents), Color,
Children, Depth. -/
inductive Node : Type where
  | mk : Entry → Vec3 → Vec3 → LColor → List Node → Int → Node
deriving Repr

def Node.entry : Node → Entry
  | .mk e _ _ _ _ _ => e

def Node.position : Node → Vec3
  | .mk _ p _ _ _ _ => p

def Node.size : Node → Vec3
  | .mk _ _ s _ _ _ => s

def Node.color : Node → LColor
  | .mk _ _ _ c _ _ => c

def Node.children : Node → List Node
  | .mk _ _ _ _ cs _ => cs

def Node.depth : Node → Int
  | .mk _ _ _ _ _ d => d

/-- `math.Max(x, 1)` over ℚ. -/
def qmax (a b : ℚ) : ℚ := if a ≤ b then b else a

/-- `math.MaxFloat64` exactly: `(2^53 - 1) · 2^971`. -/
def maxFloat64 : ℚ := (2 ^ 53 - 1) * 2 ^ 971

/-- Go `worstAspectRatio(row, rowArea, shortSide)`. -/
def worstAspectRatio (row : List (Nat × ℚ)) (rowArea : ℚ)
    (shortSide : ℚ) : ℚ :=
  if row = [] ∨ shortSide = 0 ∨ rowArea = 0 then maxFloat64
  else
    let s2 := shortSide * shortSide
    row.foldl (fun worst item =>
      let r1 := s2 * item.2 / (rowArea * rowArea)
      let r2 := rowArea * rowArea / (s2 * item.2)
      let ratio := qmax r1 r2
      if ratio > worst then ratio else worst) 0

/-- The horizontal arm of Go `layoutRow`: place strips left to right. -/
def layoutRowH (rowHeight y0 : ℚ) : List (Nat × ℚ) → ℚ → Array Rect2D →
    Array Rect2D
  | [], _, rects => rects
  | item :: rest, x, rects =>
    let w := item.2 / rowHeight
    layoutRowH rowHeight y0 rest (x + w)
      (rects.setD item.1 ⟨x, y0, w, rowHeight⟩)

/-- The vertical arm of Go `layoutRow`: place strips top to bottom. -/
def layoutRowV (rowWidth x0 : ℚ) : List (Nat × ℚ) → ℚ → Array Rect2D →
    Array Rect2D
  | [], _, rects => rects
  | item :: rest, y, rects =>
    let h := item.2 / rowWidth
    layoutRowV rowWidth x0 rest (y + h)
      (rects.setD item.1 ⟨x0, y, rowWidth, h⟩)

/-- Go `layoutRow(row, rowArea, rect, rects, shortSide)`: fills a band of the
remaining rectangle and returns what is left. Divisions by a zero dimension
(Go: float `Inf`) do not arise on the nondegenerate rectangles used here. -/
def layoutRow (row : List (Nat × ℚ)) (rowArea : ℚ) (rect : Rect2D)
    (rects : Array Rect2D) : Rect2D × Array Rect2D :=
  if row = [] then (rect, rects)
  else if rect.w < rect.h then
    let rowHeight := rowArea / rect.w
    (⟨rect.x, rect.y + rowHeight, rect.w, rect.h - rowHeight⟩,
      layoutRowH rowHeight rect.y row rect.x rects)
  else
    let rowWidth := rowArea / rect.h
    (⟨rect.x + rowWidth, rect.y, rect.w - rowWidth, rect.h⟩,
      layoutRowV rowWidth rect.x row rect.y rects)

/-- The greedy inner loop of `squarify`: admit the next area into the row
while the worst aspect ratio does not get worse. Returns the closed row, its
area and the items left over. -/
def growRow (row : List (Nat × ℚ)) (rowArea shortSide : ℚ) :
    List (Nat × ℚ) → List (Nat × ℚ) × ℚ × List (Nat × ℚ)
  | [] => (row, rowArea, [])
  | x :: rest =>
    if worstAspectRatio row rowArea shortSide ≤
        worstAspectRatio (row ++ [x]) (rowArea + x.2) shortSide then
      (row, rowArea, x :: rest)
    else growRow (row ++ [x]) (rowArea + x.2) shortSide rest

/-- The outer `for i < len(sorted)` loop of `squarify`. Each iteration
consumes at least one item, so the fuel `length + 1` passed below never runs
out. -/
def squarifyRows (remaining : Rect2D) (rects : Array Rect2D) :
    List (Nat × ℚ) → Nat → Array Rect2D
  | _, 0 => rects
  | [], _ + 1 => rects
  | x :: rest, fuel + 1 =>
    let shortSide := if remaining.h < remaining.w then remaining.h
      else remaining.w
    let g := growRow [x] x.2 shortSide rest
    let r := layoutRow g.1 g.2.1 remaining rects
    squarifyRows r.1 r.2 g.2.2 fuel

/-- Go `squarify(children, rect, parentSize)` (`parentSize` is unused by the
Go code too). The descending sort of the index/area pairs is Go
`sort.Slice`, embedded as `goSortSlice`. -/
def squarify (children : List Entry) (rect : Rect2D) (_parentSize : Int) :
    List Rect2D :=
  if children.isEmpty then []
  else
    let totalSize := (children.map (fun c => qmax ((c.size : ℚ)) 1)).sum
    let totalArea := rect.w * rect.h
    let areas := children.map
      (fun c => qmax ((c.size : ℚ)) 1 / totalSize * totalArea)
    let sorted := goSortSlice (fun a b => decide (b.2 < a.2))
      (areas.enum.map (fun p => (p.1, p.2)))
    (squarifyRows rect (Array.mkArray children.length ⟨0, 0, 0, 0⟩) sorted
      (sorted.length + 1)).toList

mutual
/-- Go `raiseChildren` composed with the `childNode.Position.Y += height`
that always precedes it: shift a node and all its descendants upward. -/
def raiseNode (off : ℚ) : Node → Node
  | .mk e p s c ch d => .mk e { p with y := p.y + off } s c
      (raiseNodeList off ch) d

def raiseNodeList (off : ℚ) : List Node → List Node
  | [] => []
  | n :: ns => raiseNode off n :: raiseNodeList off ns
end

/-- The `if entry.Type == fs.TypeDir && len(entry.Children) > 0` block of
`layoutMapVNode`, with the recursive per-child layout call abstracted as
`layoutChild`: padding inset, zero-size children appended after the sized
ones, squarify, and the `for i, child` loop with its `i < len(rects)` guard
as the zip of the children with their rectangles (non-nil results kept in
order, each raised above the parent pedestal). -/
def mapVChildren (layoutChild : Entry → Rect2D → Option Node) (height : ℚ)
    (entry : Entry) (rect : Rect2D) (opts : Options) : List Node :=
  if entry.type = EntryType.dir ∧ entry.children.length > 0 then
    let padding := rect.w * opts.paddingRatio
    let innerRect : Rect2D := ⟨rect.x + padding, rect.y + padding,
      rect.w - 2 * padding, rect.h - 2 * padding⟩
    let sizedChildren := entry.children.filter (fun c => c.size > 0) ++
      entry.children.filter (fun c => c.size = 0)
    if sizedChildren.isEmpty then []
    else
      let rects := squarify sizedChildren innerRect entry.size
      (sizedChildren.zip rects).filterMap (fun pr =>
        (layoutChild pr.1 pr.2).map (raiseNode height))
  else []

/-- Go `layoutMapVNode(entry, rect, depth, opts)`: extrude this entry's
rectangle (shared height mapping, padding inset), then lay out a directory's
children via `mapVChildren`. `log2f` is the abstract `math.Log2` of
`scaleHeight`. The `fuel` argument only bounds the recursion depth for the
termination checker; every recursive call descends into a strict subtree, so
the `entryCount` fuel passed by `computeMapV` never runs out. -/
def layoutMapVNode (log2f : ℚ → ℚ) (opts : Options) :
    Nat → Entry → Rect2D → Int → Option Node
  | 0, _, _, _ => none
  | fuel + 1, entry, rect, depth =>
    if opts.maxDepth > 0 ∧ depth > opts.maxDepth then none
    else
      let height := scaleHeight log2f entry.size opts
      let nodeColor := if entry.type ≠ EntryType.dir then
          LColor.fromAge entry.modTime
        else LColor.dirColor
      let pos : Vec3 := ⟨rect.x + rect.w / 2, height / 2, rect.y + rect.h / 2⟩
      let sz : Vec3 := ⟨rect.w * (1 - opts.paddingRatio), height,
        rect.h * (1 - opts.paddingRatio)⟩
      some (Node.mk entry pos sz nodeColor
        (mapVChildren
          (fun c r => layoutMapVNode log2f opts fuel c r (depth + 1))
          height entry rect opts) depth)

mutual
/-- Number of entries in a subtree (fuel bound for the layout recursions). -/
def entryCount : Entry → Nat
  | .mk _ _ _ _ _ cs _ _ _ => 1 + entryCountList cs

def entryCountList : List Entry → Nat
  | [] => 0
  | c :: cs => entryCount c + entryCountList cs
end


/-- Go `computeMapV(tree, opts)`: squarified treemap over a 30×30 ground
square. -/
def computeMapV (log2f : ℚ → ℚ) (tree : Tree) (opts : Options) :
    Option Node :=
  let totalArea : ℚ := 30
  let rootRect : Rect2D := ⟨-totalArea / 2, -totalArea / 2, totalArea,
    totalArea⟩
  layoutMapVNode log2f opts (entryCount tree.root) tree.root rootRect 0

/-! ## Pedestal-tree layout (FSN-style, `calcBounds`/`place`) -/

def lpFileSize : ℚ := 1/2
def lpFileSpacing : ℚ := 1/10
def lpFileHeight : ℚ := 1/10
def lpDirSize : ℚ := 7/10
def lpDirSpacing : ℚ := 1/2
def lpDirHeight : ℚ := 1/10
def lpDirDist : ℚ := 5

/-- Go `dirBounds`: width bounds and pedestal size of a directory. -/
structure dirBounds where
  minX : ℚ
  maxX : ℚ
  size : Vec3
deriving DecidableEq, Repr

/-- `int(math.Ceil(math.Sqrt(float64 n)))`, exactly (`float64` sqrt and ceil
are exact at these magnitudes). -/
def ceilSqrt (n : Nat) : Nat :=
  if Nat.sqrt n * Nat.sqrt n = n then Nat.sqrt n else Nat.sqrt n + 1

/-- Go `calcDirSize(numFiles)`: pedestal footprint gridding the file count. -/
def calcDirSize (numFiles : Nat) : ℚ × ℚ :=
  if numFiles = 0 then (lpDirSize, lpDirSize)
  else
    let filesX := ceilSqrt numFiles
    let filesY := (numFiles + filesX - 1) / filesX
    let xsz := (filesX : ℚ) * lpFileSize + ((filesX : ℚ) + 1) * lpFileSpacing
    let ysz := (filesY : ℚ) * lpFileSize + ((filesY : ℚ) + 1) * lpFileSpacing
    (if xsz < lpDirSize then lpDirSize else xsz,
     if ysz < lpDirSize then lpDirSize else ysz)

/-- The bounds of a collapsed (unexpanded) directory: a fixed minimum
placeholder, independent of the directory's contents. -/
def collapsedBounds : dirBounds :=
  { minX := -(lpDirSize + lpDirSpacing) / 2,
    maxX := (lpDirSize + lpDirSpacing) / 2,
    size := ⟨lpDirSize, lpDirHeight, lpDirSize⟩ }

mutual
/-- Go `calcBounds(entry, bounds, opts)`, as the pure function the `bounds`
map tabulates (each directory's bounds depend only on its own subtree and
`opts`). Only called on directory entries, matching the Go recursion. -/
def calcBoundsQ (opts : Options) : Entry → dirBounds
  | .mk _n p _ty _sz _m cs d _err _l =>
    if ¬ opts.isExpanded p then collapsedBounds
    else
      let numFiles := (cs.filter (fun c => c.type ≠ EntryType.dir)).length
      let wd := calcDirSize numFiles
      if opts.maxDepth > 0 ∧ d ≥ opts.maxDepth then
        { minX := -(wd.1 + lpDirSpacing) / 2,
          maxX := (wd.1 + lpDirSpacing) / 2,
          size := ⟨wd.1, lpDirHeight, wd.2⟩ }
      else
        let childWidth := childWidthSum opts cs
        let width := if childWidth > wd.1 then childWidth else wd.1
        { minX := -(width + lpDirSpacing) / 2,
          maxX := (width + lpDirSpacing) / 2,
          size := ⟨wd.1, lpDirHeight, wd.2⟩ }

/-- The `for` loop of `calcBounds` over subdirectories: total width of the
children's reserved extents. -/
def childWidthSum (opts : Options) : List Entry → ℚ
  | [] => 0
  | c :: cs =>
    (if c.type = EntryType.dir then
      (calcBoundsQ opts c).maxX - (calcBoundsQ opts c).minX
    else 0) + childWidthSum opts cs
end

/-- The file-grid loop of `place`: row-major placement on the pedestal top. -/
def placeFiles (sideFiles : Nat) (fStartX fStartY : ℚ) (maxFileSize : Int) :
    List Entry → Nat → ℚ → ℚ → List Node
  | [], _, _, _ => []
  | f :: rest, i, fPosX, fPosZ =>
    let col := i % sideFiles
    let fileNode := Node.mk f ⟨fPosX, fStartY, fPosZ⟩
      ⟨lpFileSize, lpFileHeight, lpFileSize⟩
      (LColor.fromSize f.size maxFileSize) [] f.depth
    let next :=
      if col = sideFiles - 1 then
        placeFiles sideFiles fStartX fStartY maxFileSize rest (i + 1) fStartX
          (fPosZ + lpFileSize + lpFileSpacing)
      else
        placeFiles sideFiles fStartX fStartY maxFileSize rest (i + 1)
          (fPosX + lpFileSize + lpFileSpacing) fPosZ
    fileNode :: next

/-- Go `place(entry, pos, bounds, opts)`: center the pedestal, grid the
files on top when expanded, and recurse into subdirectories recessed behind
the parent. A `bounds` map miss (`b == nil`) happens exactly for
non-directory entries, which `calcBounds` never visits. The subdirectory
loop's running `x` offset is precomputed as a prefix sum over the children's
reserved widths, and the per-child recursion is a `filterMap` over the
children zipped with their widths and offsets (the `cb == nil` `continue`
cannot fire: the loop only ranges over directories). `fuel` bounds the
recursion depth for the termination checker exactly as in
`layoutMapVNode`. -/
def place (opts : Options) : Nat → Entry → Vec3 → Option Node
  | 0, _, _ => none
  | fuel + 1, .mk n p ty sz m cs d err l, pos =>
    if opts.maxDepth > 0 ∧ d > opts.maxDepth then none
    else if ty ≠ EntryType.dir then
      some (Node.mk (.mk n p ty sz m cs d err l) pos
        ⟨lpFileSize, lpFileHeight, lpFileSize⟩ LColor.fileColor [] d)
    else
      let b := calcBoundsQ opts (.mk n p ty sz m cs d err l)
      if ¬ opts.isExpanded p then
        some (Node.mk (.mk n p ty sz m cs d err l) pos b.size LColor.dirColor
          [] d)
      else
        let files := cs.filter (fun c => c.type ≠ EntryType.dir)
        let dirs := cs.filter (fun c => c.type = EntryType.dir)
        let fileNodes :=
          if files.length > 0 then
            let sideFiles := ceilSqrt files.length
            let offs := lpFileSize / 2 + lpFileSpacing
            let fStartX := pos.x - b.size.x / 2 + offs
            let fStartZ := pos.z - b.size.z / 2 + offs
            let fStartY := pos.y + b.size.y / 2 + lpFileHeight / 2
            let maxFileSize := files.foldl
              (fun mm f => if f.size > mm then f.size else mm) 0
            placeFiles sideFiles fStartX fStartY maxFileSize files 0 fStartX
              fStartZ
          else []
        let dirNodes :=
          if dirs.length > 0 ∧ (opts.maxDepth = 0 ∨ d < opts.maxDepth) then
            let widths := dirs.map (fun dir =>
              (calcBoundsQ opts dir).maxX - (calcBoundsQ opts dir).minX)
            let xs := (widths.foldl
              (fun (acc : List ℚ × ℚ) w =>
                (acc.1 ++ [acc.2], acc.2 + w + lpDirSpacing))
              ([], b.minX - lpDirSpacing / 2)).1
            (dirs.zip (widths.zip xs)).filterMap (fun pr =>
              place opts fuel pr.1
                ⟨pos.x + pr.2.2 + pr.2.1 / 2, pos.y,
                  pos.z - (b.size.z / 2 + lpDirDist)⟩)
          else []
        some (Node.mk (.mk n p ty sz m cs d err l) pos b.size LColor.dirColor
          (fileNodes ++ dirNodes) d)

/-- Go `computeTreeV(tree, opts)`: width pass then placement from the
origin. -/
def computeTreeV (tree : Tree) (opts : Options) : Option Node :=
  place opts (entryCount tree.root) tree.root ⟨0, lpDirHeight / 2, 0⟩

/-- Go `layout.Compute(tree, opts)`: `nil` tree (or root) gives no layout,
otherwise dispatch on the mode (the `default` arm coincides with `ModeMapV`;
the model's `Mode` is exactly the two values). -/
def Compute (log2f : ℚ → ℚ) (tree : Option Tree) (opts : Options) :
    Option Node :=
  match tree with
  | none => none
  | some t =>
    match opts.mode with
    | .mapV => computeMapV log2f t opts
    | .treeV => computeTreeV t opts


/-! ## Structural facts about the treemap recursion (for claim C3)

`ℚ` values (positions, extents) are irrelevant to which layout nodes exist;
these lemmas track only the structure. -/

theorem layoutRowH_size (rh y0 : ℚ) (row : List (Nat × ℚ)) (x : ℚ)
    (a : Array Rect2D) : (layoutRowH rh y0 row x a).size = a.size := by
  induction row generalizing x a with
  | nil => rfl
  | cons item rest ih => rw [layoutRowH, ih, Array.size_setD]

theorem layoutRowV_size (rw0 x0 : ℚ) (row : List (Nat × ℚ)) (y : ℚ)
    (a : Array Rect2D) : (layoutRowV rw0 x0 row y a).size = a.size := by
  induction row generalizing y a with
  | nil => rfl
  | cons item rest ih => rw [layoutRowV, ih, Array.size_setD]

theorem layoutRow_size (row : List (Nat × ℚ)) (ra : ℚ) (rect : Rect2D)
    (a : Array Rect2D) : (layoutRow row ra rect a).2.size = a.size := by
  rw [layoutRow]
  split
  · rfl
  · split
    · exact layoutRowH_size _ _ _ _ _
    · exact layoutRowV_size _ _ _ _ _

theorem squarifyRows_size (rect : Rect2D) (a : Array Rect2D)
    (l : List (Nat × ℚ)) (fuel : Nat) :
    (squarifyRows rect a l fuel).size = a.size := by
  induction fuel generalizing rect a l with
  | zero => cases l <;> rfl
  | succ fuel ih =>
    cases l with
    | nil => rfl
    | cons x rest => rw [squarifyRows, ih, layoutRow_size]

theorem squarify_length (cs : List Entry) (rect : Rect2D) (ps : Int) :
    (squarify cs rect ps).length = cs.length := by
  rw [squarify]
  split
  · next h => simp [List.isEmpty_iff.mp h]
  · rw [Array.length_toList, squarifyRows_size, Array.size_mkArray]

theorem raiseNodeList_length (off : ℚ) (l : List Node) :
    (raiseNodeList off l).length = l.length := by
  induction l with
  | nil => rfl
  | cons n ns ih => rw [raiseNodeList, List.length_cons, ih, List.length_cons]

theorem raiseNode_entry (off : ℚ) (nd : Node) :
    (raiseNode off nd).entry = nd.entry := by
  cases nd
  rfl

theorem raiseNode_children_length (off : ℚ) (nd : Node) :
    (raiseNode off nd).children.length = nd.children.length := by
  cases nd
  rw [raiseNode]
  exact raiseNodeList_length _ _

/-- With no depth limit, the treemap layout of any entry at positive fuel
exists, and carries the entry and the depth counter. -/
theorem layoutMapVNode_succ_some (f : ℚ → ℚ) (opts : Options)
    (hmd : opts.maxDepth = 0) (fuel : Nat) (e : Entry) (r : Rect2D)
    (dep : Int) :
    ∃ nd, layoutMapVNode f opts (fuel + 1) e r dep = some nd ∧
      nd.entry = e ∧ nd.depth = dep := by
  rw [layoutMapVNode]
  rw [if_neg (by simp [hmd])]
  exact ⟨_, rfl, rfl, rfl⟩
/-- The treemap child block of a directory with exactly one child of
positive size always produces exactly one child layout node (the laid-out
child, raised above the parent), provided the per-child layout succeeds. -/
theorem mapVChildren_single_child (layoutChild : Entry → Rect2D → Option Node)
    (height : ℚ) (n p : String) (sz m : Int) (c : Entry) (hc : 0 < c.size)
    (d : Int) (err : String) (l : Bool) (rect : Rect2D) (opts : Options)
    (hsome : ∀ r0, ∃ cnd, layoutChild c r0 = some cnd) :
    ∃ r0 cnd,
      mapVChildren layoutChild height (.mk n p .dir sz m [c] d err l) rect
        opts = [raiseNode height cnd] ∧
      layoutChild c r0 = some cnd := by
  have hzero : ¬ (c.size = 0) := by omega
  have hsq : ∀ (ir : Rect2D) (ps : Int), ∃ r0, squarify [c] ir ps = [r0] := by
    intro ir ps
    exact List.length_eq_one.mp (by simp [squarify_length])
  obtain ⟨r0, hr0⟩ := hsq ⟨rect.x + rect.w * opts.paddingRatio,
    rect.y + rect.w * opts.paddingRatio,
    rect.w - 2 * (rect.w * opts.paddingRatio),
    rect.h - 2 * (rect.w * opts.paddingRatio)⟩ sz
  obtain ⟨cnd, hcnd⟩ := hsome r0
  refine ⟨r0, cnd, ?_, hcnd⟩
  rw [mapVChildren]
  rw [if_pos ⟨rfl, by simp [Entry.children]⟩]
  simp only [Entry.children, Entry.type, Entry.size]
  rw [List.filter_cons_of_pos (by simpa using hc),
    List.filter_cons_of_neg (by simpa using hzero)]
  simp only [List.filter_nil, List.append_nil]
  rw [hr0]
  simp only [List.zip_cons_cons, List.zip_nil_left, List.filterMap]
  rw [hcnd]
  rfl

/-- A directory entry holding exactly one positive-size child is laid out by
the treemap with exactly one child node, whatever `ExpandedPaths` says. -/
theorem layoutMapV_single_child_dir (f : ℚ → ℚ) (opts : Options)
    (hmd : opts.maxDepth = 0) (fuel : Nat) (n p : String) (sz m : Int)
    (c : Entry) (hc : 0 < c.size) (d : Int) (err : String) (l : Bool)
    (r : Rect2D) (dep : Int) :
    ∃ nd cnd r0,
      layoutMapVNode f opts (fuel + 2) (.mk n p .dir sz m [c] d err l) r dep
        = some nd ∧
      nd.entry.path = p ∧
      nd.children = [raiseNode (scaleHeight f sz opts) cnd] ∧
      layoutMapVNode f opts (fuel + 1) c r0 (dep + 1) = some cnd := by
  have hsome : ∀ r0, ∃ cnd,
      layoutMapVNode f opts (fuel + 1) c r0 (dep + 1) = some cnd :=
    fun r0 => ((layoutMapVNode_succ_some f opts hmd fuel c r0 (dep + 1)).imp
      (fun nd h => h.1))
  obtain ⟨r0, cnd, hmap, hcnd⟩ := mapVChildren_single_child
    (fun c' r' => layoutMapVNode f opts (fuel + 1) c' r' (dep + 1))
    (scaleHeight f sz opts) n p sz m c hc d err l r opts hsome
  rw [show fuel + 2 = (fuel + 1) + 1 from rfl]
  refine ⟨Node.mk (Entry.mk n p .dir sz m [c] d err l)
      ⟨r.x + r.w / 2, scaleHeight f sz opts / 2, r.y + r.h / 2⟩
      ⟨r.w * (1 - opts.paddingRatio), scaleHeight f sz opts,
        r.h * (1 - opts.paddingRatio)⟩
      LColor.dirColor
      (mapVChildren (fun c' r' => layoutMapVNode f opts (fuel + 1) c' r'
        (dep + 1)) (scaleHeight f sz opts)
        (Entry.mk n p .dir sz m [c] d err l) r opts)
      dep, cnd, r0, ?_, rfl, ?_, hcnd⟩
  · rw [layoutMapVNode]
    rw [if_neg (by simp [hmd])]
    rfl
  · exact hmap

/-! ## Claims C3 and C9: collapsed directories in the two layouts -/

def c3File : Entry := Entry.mk "f" "/r/d/f" .file 1024 0 [] 2 "" false

def c3Dir : Entry := Entry.mk "d" "/r/d" .dir 1024 0 [c3File] 1 "" true

/-- An aggregated tree: root `/r` holding one subdirectory `/r/d` which holds
one 1 KiB file. -/
def c3Root : Entry := Entry.mk "r" "/r" .dir 1024 0 [c3Dir] 0 "" true

def c3Tree : Tree :=
  { root := c3Root, totalSize := 1024, fileCount := 1, dirCount := 2,
    maxDepth := 2, errors := [] }

/-- Default treemap options with a non-nil `ExpandedPaths` containing only
the root: `/r/d` is not expanded. -/
def c3Opts : Options :=
  { DefaultOptions .mapV with expandedPaths := some ["/r"] }

/-- **C3 counterexample.** Under the squarified treemap (`ModeMapV`),
`Compute` lays out the unexpanded directory `/r/d` with a child layout node
(its file) — the treemap code never consults `ExpandedPaths`, so a directory
absent from a non-nil set is **not** a childless fixed-size placeholder under
"either layout algorithm". -/
theorem C3_counterexample :
    c3Opts.expandedPaths ≠ none ∧
    c3Opts.isExpanded "/r/d" = false ∧
    (Compute (fun q => q) (some c3Tree) c3Opts).map
      (fun rootNode => rootNode.children.map
        (fun cn => (cn.entry.path, cn.children.length))) =
      some [("/r/d", 1)] := by
  have hmd : c3Opts.maxDepth = 0 := rfl
  refine ⟨by simp [c3Opts, DefaultOptions], by decide, ?_⟩
  obtain ⟨ndR, cndD, r0R, hR, hRp, hRch, hD⟩ :=
    layoutMapV_single_child_dir (fun q => q) c3Opts hmd 1 "r" "/r" 1024 0
      c3Dir (by decide) 0 "" true
      ⟨-(30 : ℚ) / 2, -(30 : ℚ) / 2, 30, 30⟩ 0
  obtain ⟨ndD, cndF, r0D, hD2, hDp, hDch, hF⟩ :=
    layoutMapV_single_child_dir (fun q => q) c3Opts hmd 0 "d" "/r/d" 1024 0
      c3File (by decide) 1 "" true r0R 1
  have hDD : ndD = cndD := by
    have h1 : layoutMapVNode (fun q => q) c3Opts 2 c3Dir r0R 1 = some ndD := by
      rw [show (2 : Nat) = 0 + 2 from rfl, ← show c3Dir =
        Entry.mk "d" "/r/d" .dir 1024 0 [c3File] 1 "" true from rfl] at hD2
      simpa using hD2
    have h2 : layoutMapVNode (fun q => q) c3Opts 2 c3Dir r0R 1 =
        some cndD := by simpa using hD
    rw [h1] at h2
    exact Option.some.inj h2
  have hcm : Compute (fun q => q) (some c3Tree) c3Opts =
      layoutMapVNode (fun q => q) c3Opts (entryCount c3Root) c3Root
        ⟨-(30 : ℚ) / 2, -(30 : ℚ) / 2, 30, 30⟩ 0 := rfl
  have hRfull : layoutMapVNode (fun q => q) c3Opts (entryCount c3Root)
      c3Root ⟨-(30 : ℚ) / 2, -(30 : ℚ) / 2, 30, 30⟩ 0 = some ndR := by
    rw [show entryCount c3Root = 1 + 2 from rfl, show c3Root =
      Entry.mk "r" "/r" .dir 1024 0 [c3Dir] 0 "" true from rfl]
    exact hR
  rw [hcm, hRfull]
  simp only [Option.map_some', Option.some.injEq]
  rw [hRch, List.map_cons, List.map_nil, raiseNode_entry]
  have hlen : (raiseNode (scaleHeight (fun q => q) 1024 c3Opts) cndD
      |>.children.length) = cndD.children.length :=
    raiseNode_children_length _ _
  rw [hlen, ← hDD, hDp, hDch]
  simp

/-- **C3 (amended).** Only the pedestal tree layout renders an unexpanded
directory as a placeholder: `place` on a directory whose path is not in the
(non-nil) `ExpandedPaths` set yields either nothing (depth-culled or out of
fuel) or exactly the fixed-minimum-size placeholder node with no child
nodes, regardless of the directory's size or contents; the squarified
treemap ignores `ExpandedPaths` entirely (see the counterexample). -/
theorem C3_amended_treev_collapsed_placeholder (opts : Options) (e : Entry)
    (pos : Vec3) (fuel : Nat) (hdir : e.type = EntryType.dir)
    (hne : opts.isExpanded e.path = false) :
    place opts fuel e pos = none ∨
    place opts fuel e pos =
      some (Node.mk e pos ⟨lpDirSize, lpDirHeight, lpDirSize⟩
        LColor.dirColor [] e.depth) := by
  match fuel, e with
  | 0, .mk n p ty sz m cs d err l => exact Or.inl rfl
  | fuel + 1, .mk n p ty sz m cs d err l =>
    rw [Entry.type] at hdir
    subst hdir
    rw [Entry.path] at hne
    by_cases hd : opts.maxDepth > 0 ∧ d > opts.maxDepth
    · exact Or.inl (by simp [place, hd])
    · refine Or.inr ?_
      simp only [place, if_neg hd]
      rw [if_neg (by simp)]
      rw [if_pos (by simp [hne])]
      rw [calcBoundsQ, if_pos (by simp [hne])]
      rfl

theorem C3_witness :
    place c3Opts 2 c3Dir ⟨0, lpDirHeight / 2, 0⟩ = none ∨
    place c3Opts 2 c3Dir ⟨0, lpDirHeight / 2, 0⟩ =
      some (Node.mk c3Dir ⟨0, lpDirHeight / 2, 0⟩
        ⟨lpDirSize, lpDirHeight, lpDirSize⟩ LColor.dirColor []
        c3Dir.depth) :=
  C3_amended_treev_collapsed_placeholder c3Opts c3Dir ⟨0, lpDirHeight / 2, 0⟩
    2 (by decide) (by decide)

/-- **C9.** Pedestal layout hyperproperty: two directory entries with the
same path — however much their contents, sizes or subtrees differ — get the
identical fixed minimum footprint (pedestal size and width bounds) whenever
that path is absent from the non-nil `ExpandedPaths` set. -/
theorem C9_collapsed_footprint_content_independent (opts : Options)
    (e1 e2 : Entry) (hd1 : e1.type = EntryType.dir)
    (hd2 : e2.type = EntryType.dir) (hp : e1.path = e2.path)
    (hne : opts.isExpanded e1.path = false) :
    calcBoundsQ opts e1 = calcBoundsQ opts e2 ∧
    calcBoundsQ opts e1 = collapsedBounds := by
  match e1, e2 with
  | .mk n1 p1 t1 s1 m1 c1 d1 er1 l1, .mk n2 p2 t2 s2 m2 c2 d2 er2 l2 =>
    rw [Entry.path] at hne
    rw [Entry.path, Entry.path] at hp
    subst hp
    constructor
    · rw [calcBoundsQ, calcBoundsQ, if_pos (by simp [hne]),
        if_pos (by simp [hne])]
    · rw [calcBoundsQ, if_pos (by simp [hne])]

def c9Big : Entry :=
  Entry.mk "d" "/r/d" .dir 999999999 0
    [Entry.mk "f" "/r/d/f" .file 999999999 0 [] 2 "" false] 1 "" true

def c9Empty : Entry := Entry.mk "d" "/r/d" .dir 0 0 [] 1 "" true

/-- A huge collapsed directory and an empty one at the same path get the
same fixed footprint. -/
theorem C9_witness :
    calcBoundsQ c3Opts c9Big = calcBoundsQ c3Opts c9Empty ∧
    calcBoundsQ c3Opts c9Big = collapsedBounds :=
  C9_collapsed_footprint_content_independent c3Opts c9Big c9Empty
    (by decide) (by decide) (by decide) (by decide)

end FSN
